import Mathlib

/-!
# Helpers.hxx (SuperPixelSegmentation): a shallow embedding

The helper templates of `Helpers.hxx` are embedded as pure functions over a
small model of `itk::Image<T, 2>`.

Modelling conventions
* An image is its largest possible region together with its pixel buffer in
  row-major order; the buffer holds exactly one pixel per position of the
  region (the buffered region is the largest possible region, as after
  `SetRegions` followed by `Allocate`).
* An `itk::ImageRegionIterator` that walks an image over that image's own
  `GetLargestPossibleRegion()` visits the buffer offsets `0, 1, 2, ...` in
  this order; `GetIndex()` and `GetPixel(index)` are the usual index/offset
  computations of a row-major buffer and are spelled out.
* `Allocate()` does not initialise memory: the contents of a freshly allocated
  buffer are a parameter `mem` (`mem k` is what offset `k` holds).
* `int` pixels are `Int`, `unsigned int` counters are `Nat` (a counter wraps
  only on rasters of 2^31 pixels and more); `float` is `FloatVal`.
* A store through an iterator that has run past the end of its buffer and an
  out-of-range `operator[]` are undefined behaviour in C++; the embedding makes
  them explicit (`CopyResult.overrun`, result `none`).
* A multi-channel image is an `itk::VectorImage`: its number of components per
  pixel is a field of the image object, and the one of `output` is what the
  caller set it to; the filters of the ITK library that `BilateralAllChannels`
  chains are definitions of their own, and the bilateral filter is a parameter.
-/

set_option autoImplicit false

namespace Helpers

/-! ## Data model -/

/-- The type `itk::Index<2>`: a pixel position. -/
structure Index where
  x : Int
  y : Int
deriving DecidableEq, Repr

/-- The type `itk::ImageRegion<2>`: the index of the first pixel and the size. -/
structure ImageRegion where
  indexX : Int
  indexY : Int
  sizeX : Nat
  sizeY : Nat
deriving DecidableEq, Repr

/-- Number of pixels of a region. -/
def ImageRegion.numberOfPixels (r : ImageRegion) : Nat := r.sizeX * r.sizeY

/-- Index of the `k`-th pixel of region `r` in row-major order
(`GetIndex()` of a region iterator after `k` increments). -/
def ImageRegion.indexOf (r : ImageRegion) (k : Nat) : Index :=
  { x := r.indexX + ((k % r.sizeX : Nat) : Int), y := r.indexY + ((k / r.sizeX : Nat) : Int) }

/-- Buffer offset of index `idx` in an image whose buffered region is `r`
(`ComputeOffset`). -/
def ImageRegion.computeOffset (r : ImageRegion) (idx : Index) : Int :=
  (idx.y - r.indexY) * (r.sizeX : Int) + (idx.x - r.indexX)

/-- Whether region `r` lies inside region `outer`. -/
def ImageRegion.IsInside (outer r : ImageRegion) : Prop :=
  outer.indexX ≤ r.indexX ∧ outer.indexY ≤ r.indexY ∧
  r.indexX + (r.sizeX : Int) ≤ outer.indexX + (outer.sizeX : Int) ∧
  r.indexY + (r.sizeY : Int) ≤ outer.indexY + (outer.sizeY : Int)

instance (outer r : ImageRegion) : Decidable (outer.IsInside r) := by
  unfold ImageRegion.IsInside; infer_instance

/-- An `itk::Image<T, 2>`: its region and its pixel buffer (row-major). -/
structure Image (T : Type) where
  region : ImageRegion
  buffer : List T
  hbuf : buffer.length = region.numberOfPixels

/-- Pixel container of `n` pixels. -/
abbrev PixelContainer (T : Type) (n : Nat) := { l : List T // l.length = n }

/-- Store `v` at offset `k` of a pixel container (`k` in range). -/
def PixelContainer.write {T : Type} {n : Nat} (b : PixelContainer T n) (k : Nat) (v : T) :
    PixelContainer T n :=
  ⟨b.1.set k v, by rw [List.length_set]; exact b.2⟩

/-- The call `image->GetLargestPossibleRegion()`. -/
def Image.GetLargestPossibleRegion {T : Type} (image : Image T) : ImageRegion := image.region

/-- The call `image->GetPixel(index)`: the pixel at the offset of `index`;
`none` when that offset is outside the buffer. -/
def Image.GetPixel {T : Type} (image : Image T) (idx : Index) : Option T :=
  let off := image.region.computeOffset idx
  if 0 ≤ off then image.buffer[off.toNat]? else none

/-- The calls `output->SetRegions(region); output->Allocate();`: a buffer of
the size of `region` with unspecified contents `mem`. -/
def Allocate {T : Type} (region : ImageRegion) (mem : Nat → T) :
    PixelContainer T region.numberOfPixels :=
  ⟨(List.range region.numberOfPixels).map mem, by simp⟩

/-! ## DeepCopy, DeepCopyInRegion -/

/-- What a copy leaves behind: the source image, the output image, and the
values that the loop stored through the output iterator after it had passed the
end of the output buffer (each such store is an out-of-bounds write). -/
structure CopyResult (T : Type) where
  source : Image T
  output : Image T
  overrun : List T

/-- The `while(!inputIterator.IsAtEnd())` loop of `DeepCopyInRegion`:
`pending` are the input pixels not yet visited, `pos` is the offset of the
output iterator. -/
def copyLoop {T : Type} {n : Nat} :
    List T → Nat → PixelContainer T n → List T → PixelContainer T n × List T
  | [], _, out, over => (out, over)
  | v :: pending, pos, out, over =>
    if pos < n then copyLoop pending (pos + 1) (out.write pos v) over
    else copyLoop pending (pos + 1) out (over ++ [v])

/-- The function `Helpers::DeepCopyInRegion`. The input iterator walks
`input->GetLargestPossibleRegion()`, the output iterator walks the region of the
freshly allocated output. -/
def DeepCopyInRegion {T : Type} (input : Image T) (region : ImageRegion) (mem : Nat → T) :
    CopyResult T :=
  let r := copyLoop input.buffer 0 (Allocate region mem) []
  { source := input
    output := { region := region, buffer := r.1.1, hbuf := r.1.2 }
    overrun := r.2 }

/-- The function `Helpers::DeepCopy`. -/
def DeepCopy {T : Type} (input : Image T) (mem : Nat → T) : CopyResult T :=
  DeepCopyInRegion input input.GetLargestPossibleRegion mem

/-- Pixel of `image` at region-local position `(i, j)` (column `i`, row `j`). -/
def Image.pixelAt {T : Type} (image : Image T) (i j : Nat) : Option T :=
  if i < image.region.sizeX ∧ j < image.region.sizeY then
    image.GetPixel { x := image.region.indexX + (i : Int), y := image.region.indexY + (j : Int) }
  else none

/-! ## RelabelSequential -/

/-- The call `uniqueLabels.insert(v)` on a `std::set`, kept as the strictly
ascending list of its elements (the order in which the set is iterated). -/
def setInsert (v : Int) : List Int → List Int
  | [] => [v]
  | u :: rest =>
    if v < u then v :: u :: rest
    else if v = u then u :: rest
    else u :: setInsert v rest

/-- First loop of `RelabelSequential`: every pixel of the input is inserted
into `uniqueLabels`. -/
def collectUniqueLabels (pixels : List Int) : List Int :=
  pixels.foldl (fun s v => setInsert v s) []

/-- The two pixel buffers the rewrite loops work on: the one read through
`input` and the one written through `output`. -/
structure RelabelMemory (region : ImageRegion) where
  input : PixelContainer Int region.numberOfPixels
  output : PixelContainer Int region.numberOfPixels

/-- The call `outputIterator.Set(v)` with the iterator at offset `k`. When
`input` and `output` share their storage, the store is seen through `input`
as well. -/
def RelabelMemory.setOutput {region : ImageRegion} (shared : Bool) (m : RelabelMemory region)
    (k : Nat) (v : Int) : RelabelMemory region :=
  if shared then { input := m.input.write k v, output := m.output.write k v }
  else { input := m.input, output := m.output.write k v }

/-- Body of the inner `while` loop with the output iterator at offset `k`:
`if(input->GetPixel(outputIterator.GetIndex()) == *it1) outputIterator.Set(sequentialLabelId)`. -/
def rewriteStep {region : ImageRegion} (shared : Bool) (label : Int) (sequentialLabelId : Nat)
    (m : RelabelMemory region) (k : Nat) : RelabelMemory region :=
  if (Image.mk region m.input.1 m.input.2).GetPixel (region.indexOf k) = some label then
    m.setOutput shared k (sequentialLabelId : Int)
  else m

/-- The inner `while(!outputIterator.IsAtEnd())` loop: one pass over the
output region. -/
def rewritePass {region : ImageRegion} (shared : Bool) (label : Int) (sequentialLabelId : Nat)
    (m : RelabelMemory region) : RelabelMemory region :=
  (List.range region.numberOfPixels).foldl (rewriteStep shared label sequentialLabelId) m

/-- The `for` loop over `uniqueLabels`, which increments `sequentialLabelId`
after each pass. -/
def rewriteAll {region : ImageRegion} (shared : Bool) :
    List Int → Nat → RelabelMemory region → RelabelMemory region
  | [], _, m => m
  | label :: rest, sequentialLabelId, m =>
    rewriteAll shared rest (sequentialLabelId + 1) (rewritePass shared label sequentialLabelId m)

/-- The function `Helpers::RelabelSequential`, called with an output image that
has storage of its own. -/
def RelabelSequential (input : Image Int) (mem : Nat → Int) : Image Int :=
  let m := rewriteAll false (collectUniqueLabels input.buffer) 0
    { input := ⟨input.buffer, input.hbuf⟩, output := Allocate input.region mem }
  { region := input.region, buffer := m.output.1, hbuf := m.output.2 }

/-- The function `Helpers::RelabelSequential`, called with the same image as
`input` and as `output`: `SetRegions` and `Allocate` with the unchanged size
keep the buffer, and every store is seen by the later reads of `input`. -/
def RelabelSequentialInPlace (input : Image Int) : Image Int :=
  let m := rewriteAll true (collectUniqueLabels input.buffer) 0
    { input := ⟨input.buffer, input.hbuf⟩, output := ⟨input.buffer, input.hbuf⟩ }
  { region := input.region, buffer := m.output.1, hbuf := m.output.2 }

/-- Number of distinct pixel values of a raster. -/
def distinctValues (image : Image Int) : Nat := image.buffer.dedup.length

/-! ## MaxValue, ColorLabelsByAverageColor -/

/-- Value of a `float`. A finite value is an exact rational (rounding is not
modelled); `nan` stands for every value that is not a finite number (NaN and
the infinities, which arise from a division by zero). -/
inductive FloatVal where
  | num (q : ℚ)
  | nan
deriving DecidableEq

/-- Addition of `float` values. -/
def FloatVal.add : FloatVal → FloatVal → FloatVal
  | FloatVal.num a, FloatVal.num b => FloatVal.num (a + b)
  | _, _ => FloatVal.nan

/-- The quotient `x / static_cast<float>(count)`: not a finite number when
`count` is zero. -/
def FloatVal.divCount : FloatVal → Nat → FloatVal
  | FloatVal.num a, count => if count = 0 then FloatVal.nan else FloatVal.num (a / (count : ℚ))
  | FloatVal.nan, _ => FloatVal.nan

/-- The product `static_cast<float>(count) * x`. -/
def FloatVal.mulCount : Nat → FloatVal → FloatVal
  | count, FloatVal.num a => FloatVal.num ((count : ℚ) * a)
  | _, FloatVal.nan => FloatVal.nan

/-- A pixel of three components (`itk::Vector<., 3>`, `itk::CovariantVector<., 3>`). -/
structure Vec3 (C : Type) where
  c0 : C
  c1 : C
  c2 : C
deriving DecidableEq

/-- The component type of `TImage::PixelType`: the value stored by `Fill(0)`
and the implicit conversions to and from `float`, with the two facts that zero
converts to zero in both directions. -/
structure PixelOps (C : Type) where
  zero : C
  toFloat : C → FloatVal
  ofFloat : FloatVal → C
  toFloat_zero : toFloat zero = FloatVal.num 0
  ofFloat_zero : ofFloat (FloatVal.num 0) = zero

/-- Pixels with `float` components: both conversions are the identity. -/
def floatPixel : PixelOps FloatVal :=
  { zero := FloatVal.num 0
    toFloat := id
    ofFloat := id
    toFloat_zero := rfl
    ofFloat_zero := rfl }

/-- Modelled from the spec: the class `itk::MinimumMaximumImageCalculator`, on
which `Helpers::MaxValue` relies, belongs to a library outside this repository.
The spec says of `maxValue`: returns the maximum pixel value present; undefined
on an empty raster (`none` here). -/
def MaxValue (image : Image Int) : Option Int :=
  match image.buffer with
  | [] => none
  | v :: rest => some (rest.foldl (fun m w => if m < w then w else m) v)

/-- The two accumulator vectors of `ColorLabelsByAverageColor`. -/
structure Accumulators where
  labelCount : List Nat
  segmentFloatColors : List (Vec3 FloatVal)

/-- The statement `floatColor[c] = image->GetPixel(...)[c]` for the three
components. -/
def toFloatColor {C : Type} (P : PixelOps C) (color : Vec3 C) : Vec3 FloatVal :=
  { c0 := P.toFloat color.c0, c1 := P.toFloat color.c1, c2 := P.toFloat color.c2 }

/-- The statement `segmentFloatColors[label] += floatColor`. -/
def Vec3.addFloat (s c : Vec3 FloatVal) : Vec3 FloatVal :=
  { c0 := s.c0.add c.c0, c1 := s.c1.add c.c1, c2 := s.c2.add c.c2 }

/-- The accumulation loop `while(!labelIterator.IsAtEnd())`: `pending` are the
labels not yet visited, `k` is the offset of `labelIterator`. A subscript by a
label outside the vectors (a negative label converts to a huge `size_t`) and a
`GetPixel` outside the buffer of `image` give `none`. -/
def accumulateLoop {C : Type} (P : PixelOps C) (image : Image (Vec3 C))
    (labelRegion : ImageRegion) : List Int → Nat → Accumulators → Option Accumulators
  | [], _, acc => some acc
  | label :: pending, k, acc =>
    if 0 ≤ label then
      match acc.labelCount[label.toNat]?, image.GetPixel (labelRegion.indexOf k),
          acc.segmentFloatColors[label.toNat]? with
      | some count, some color, some sum =>
        accumulateLoop P image labelRegion pending (k + 1)
          { labelCount := acc.labelCount.set label.toNat (count + 1)
            segmentFloatColors :=
              acc.segmentFloatColors.set label.toNat (sum.addFloat (toFloatColor P color)) }
      | _, _, _ => none
    else none

/-- Body of the loop over `segmentColors`: `colorPixel[c] =
segmentColors[i][c] / static_cast<float>(labelCount[i])` for the three
components. -/
def averagePixel {C : Type} (P : PixelOps C) (segmentColor : Vec3 C) (count : Nat) : Vec3 C :=
  { c0 := P.ofFloat ((P.toFloat segmentColor.c0).divCount count)
    c1 := P.ofFloat ((P.toFloat segmentColor.c1).divCount count)
    c2 := P.ofFloat ((P.toFloat segmentColor.c2).divCount count) }

/-- One iteration `i` of `for(unsigned int i = 0; i < segmentColors.size(); ++i)`. -/
def averageStep {C : Type} (P : PixelOps C) (labelCount : List Nat)
    (segmentColors : Option (List (Vec3 C))) (i : Nat) : Option (List (Vec3 C)) :=
  match segmentColors with
  | none => none
  | some colors =>
    match colors[i]?, labelCount[i]? with
    | some color, some count => some (colors.set i (averagePixel P color count))
    | _, _ => none

/-- The loop over `segmentColors`. -/
def averageLoop {C : Type} (P : PixelOps C) (labelCount : List Nat)
    (segmentColors : List (Vec3 C)) : Option (List (Vec3 C)) :=
  (List.range segmentColors.length).foldl (averageStep P labelCount) (some segmentColors)

/-- The last loop, `while(!colorIterator.IsAtEnd())`, which executes
`output->SetPixel(colorIterator.GetIndex(), segmentColors[colorIterator.Get()])`:
`pending` are the labels not yet visited, `k` is the offset of `colorIterator`. -/
def colorizeLoop {C : Type} (segmentColors : List (Vec3 C)) (region : ImageRegion) :
    List Int → Nat → PixelContainer (Vec3 C) region.numberOfPixels →
      Option (PixelContainer (Vec3 C) region.numberOfPixels)
  | [], _, out => some out
  | label :: pending, k, out =>
    if 0 ≤ label then
      match segmentColors[label.toNat]? with
      | some color =>
        let off := region.computeOffset (region.indexOf k)
        if 0 ≤ off ∧ off.toNat < region.numberOfPixels then
          colorizeLoop segmentColors region pending (k + 1) (out.write off.toNat color)
        else none
      | none => none
    else none

/-- What `ColorLabelsByAverageColor` computes: its local variables at the end
of the call and the output image. -/
structure ColorLabels (C : Type) where
  maxLabel : Nat
  labelCount : List Nat
  segmentFloatColors : List (Vec3 FloatVal)
  segmentColors : List (Vec3 C)
  output : Image (Vec3 C)

/-- The accumulation pass of `ColorLabelsByAverageColor`: `maxLabel`, the two
vectors of `maxLabel + 1` entries and the loop over the label image. A negative
maximum converts to an `unsigned int` above every label; as every subscript by a
negative label is out of range whatever the size of the vectors, the size
`maxLabel + 1` is computed on the natural number `toNat`. -/
def accumulate {C : Type} (P : PixelOps C) (image : Image (Vec3 C)) (labelImage : Image Int) :
    Option (Nat × Accumulators) :=
  match MaxValue labelImage with
  | none => none
  | some mx =>
    let maxLabel : Nat := mx.toNat
    let zeroFloatPixel : Vec3 FloatVal :=
      { c0 := FloatVal.num 0, c1 := FloatVal.num 0, c2 := FloatVal.num 0 }
    match accumulateLoop P image labelImage.region labelImage.buffer 0
        { labelCount := List.replicate (maxLabel + 1) 0
          segmentFloatColors := List.replicate (maxLabel + 1) zeroFloatPixel } with
    | none => none
    | some acc => some (maxLabel, acc)

/-- The function `Helpers::ColorLabelsByAverageColor`; `none` when the call
runs into an access outside a vector or a buffer, or when the label image is
empty. -/
def ColorLabelsByAverageColor {C : Type} (P : PixelOps C) (image : Image (Vec3 C))
    (labelImage : Image Int) (mem : Nat → Vec3 C) : Option (ColorLabels C) :=
  match accumulate P image labelImage with
  | none => none
  | some (maxLabel, acc) =>
    let zeroPixel : Vec3 C := { c0 := P.zero, c1 := P.zero, c2 := P.zero }
    match averageLoop P acc.labelCount (List.replicate (maxLabel + 1) zeroPixel) with
    | none => none
    | some segmentColors =>
      match colorizeLoop segmentColors labelImage.region labelImage.buffer 0
          (Allocate labelImage.region mem) with
      | none => none
      | some out =>
        some { maxLabel := maxLabel
               labelCount := acc.labelCount
               segmentFloatColors := acc.segmentFloatColors
               segmentColors := segmentColors
               output := { region := labelImage.region, buffer := out.1, hbuf := out.2 } }

/-- Number of distinct pixel values of `image` that are strictly smaller than `v`. -/
def distinctValuesBelow (image : Image Int) (v : Int) : Nat :=
  (image.buffer.dedup.filter (fun u => decide (u < v))).length

/-! ## CountPixelsWithValue -/

/-- The function `Helpers::CountPixelsWithValue`. The loop runs once per pixel
of the region, and its test is `image->Get() == value`: it asks the image, not
the iterator, for a value. `itk::Image` declares no member `Get`; what an image
class answers to that call is the parameter `imageGet`. -/
def CountPixelsWithValue {T : Type} [DecidableEq T] (imageGet : Image T → T) (image : Image T)
    (value : T) : Nat :=
  image.buffer.foldl (fun counter _ => if imageGet image = value then counter + 1 else counter) 0

/-! ## BilateralAllChannels -/

/-- An `itk::VectorImage<T, 2>` (the class that the typedef `ScalarImageType`
of `BilateralAllChannels` fits): its region, its number of components per
pixel, which is a field of the image object set by
`SetNumberOfComponentsPerPixel`, and its pixels in row-major order, each one
the list of its components. -/
structure VectorImage (T : Type) where
  region : ImageRegion
  numberOfComponents : Nat
  buffer : List (List T)
  hbuf : buffer.length = region.numberOfPixels
  hpix : ∀ px ∈ buffer, px.length = numberOfComponents

/-- The call `image->GetNumberOfComponentsPerPixel()`. -/
def VectorImage.GetNumberOfComponentsPerPixel {T : Type} (image : VectorImage T) : Nat :=
  image.numberOfComponents

/-- A pixel stored in an image of `L` components per pixel. -/
abbrev VectorPixel (T : Type) (L : Nat) := { l : List T // l.length = L }

/-- Modelled from the spec: the class `itk::VectorIndexSelectionCastImageFilter`
belongs to a library outside this repository. The spec says: extract that
channel as an independent single-channel raster. After `SetIndex(i)` and
`Update()` the output is the raster of the region of `image` whose pixels are
the components `i` of the pixels of `image`. -/
def VectorIndexSelection {T : Type} (image : VectorImage T) (i : Nat)
    (hi : i < image.numberOfComponents) : Image T :=
  { region := image.region
    buffer := image.buffer.pmap (fun px (h : i < px.length) => px.get ⟨i, h⟩)
      (fun px hpx => by rw [image.hpix px hpx]; exact hi)
    hbuf := by rw [List.length_pmap]; exact image.hbuf }

/-- Modelled from the spec: the class `itk::ComposeImageFilter` belongs to a
library outside this repository. The spec says: recompose all processed
channels back into one multi-channel raster of the same size and component
count. The output has the region of input 0 and as many components per pixel
as there are inputs; its pixel at an offset holds, in the order of the inputs,
the pixels of the inputs at that offset. The result is `none` (the library
raises an exception) when no input is set or when an input has another region
than input 0. -/
def ComposeImage {T : Type} (inputs : List (Image T)) : Option (VectorImage T) :=
  match inputs with
  | [] => none
  | first :: _ =>
    if h : ∀ im ∈ inputs, im.region = first.region then
      some
        { region := first.region
          numberOfComponents := inputs.length
          buffer := (List.finRange first.region.numberOfPixels).map (fun k =>
            inputs.pmap (fun im (hk : k.1 < im.buffer.length) => im.buffer.get ⟨k.1, hk⟩)
              (fun im him => by rw [im.hbuf, h im him]; exact k.2))
          hbuf := by rw [List.length_map, List.length_finRange]
          hpix := by
            intro px hpx
            obtain ⟨k, _, rfl⟩ := List.mem_map.1 hpx
            exact List.length_pmap }
    else none

/-- The `for` loop of `BilateralAllChannels` over the components
`i < image->GetNumberOfComponentsPerPixel()`: channel `i` is selected and
deep-copied, passed through the bilateral filter (the parameter `bilateral`,
with its two sigmas), deep-copied again and pushed onto `filteredImages`. -/
def filterChannels {T S : Type} (bilateral : S → S → Image T → Image T)
    (image : VectorImage T) (domainSigma rangeSigma : S)
    (memChannel memBlurred : Nat → Nat → T) : List (Image T) :=
  (List.finRange image.GetNumberOfComponentsPerPixel).foldl (fun filteredImages i =>
    let imageChannel := (DeepCopy (VectorIndexSelection image i.1 i.2) (memChannel i.1)).output
    let blurred :=
      (DeepCopy (bilateral domainSigma rangeSigma imageChannel) (memBlurred i.1)).output
    filteredImages ++ [blurred]) []

/-- The statement `outputIterator.Set(inputIterator.Get())` when the images are
vector images: the pixel accessor of `output` stores as many components as
`output` has per pixel, `outputComponents`, read from the start of the source
pixel. With more components in `output` than in the source pixel the read runs
past the end of the source pixel (`none`). -/
def storeVectorPixel {T : Type} (outputComponents : Nat) (px : List T) :
    Option (VectorPixel T outputComponents) :=
  if h : outputComponents ≤ px.length then
    some ⟨px.take outputComponents, by rw [List.length_take]; omega⟩
  else none

/-- The values that the copy loop stores for the pixels of the source, in the
order of the input iterator. -/
def storeVectorPixels {T : Type} (outputComponents : Nat) :
    List (List T) → Option (List (VectorPixel T outputComponents))
  | [] => some []
  | px :: rest =>
    match storeVectorPixel outputComponents px, storeVectorPixels outputComponents rest with
    | some stored, some others => some (stored :: others)
    | _, _ => none

/-- The function `Helpers::DeepCopy` with a vector image for `TImage`.
`outputComponents` is the number of components per pixel that the image object
`output` has when it is passed in: `DeepCopyInRegion` calls `SetRegions` and
`Allocate` on it and nothing else, so this number stays. `Allocate` on a vector
image of zero components raises an exception (`none`). The copy loop is the one
of `DeepCopyInRegion` (`copyLoop`), over the full region of `input`; a store
past the end of the output buffer gives `none` as well. -/
def DeepCopyVectorImage {T : Type} (input : VectorImage T) (outputComponents : Nat)
    (mem : Nat → VectorPixel T outputComponents) : Option (VectorImage T) :=
  if outputComponents = 0 then none
  else
    match storeVectorPixels outputComponents input.buffer with
    | none => none
    | some pending =>
      let r := copyLoop pending 0 (Allocate input.region mem) []
      match r.2 with
      | [] =>
        some
          { region := input.region
            numberOfComponents := outputComponents
            buffer := r.1.1.map (fun px => px.1)
            hbuf := by rw [List.length_map]; exact r.1.2
            hpix := by
              intro px hpx
              obtain ⟨q, _, rfl⟩ := List.mem_map.1 hpx
              exact q.2 }
      | _ :: _ => none

/-- The function `Helpers::BilateralAllChannels`: the images of
`filteredImages` are the inputs of the composing filter, whose output is
deep-copied into `output`. `outputComponents` is the number of components per
pixel of the image object `output` that the caller passes in. -/
def BilateralAllChannels {T S : Type} (bilateral : S → S → Image T → Image T)
    (image : VectorImage T) (outputComponents : Nat) (domainSigma rangeSigma : S)
    (memChannel memBlurred : Nat → Nat → T) (memOutput : Nat → VectorPixel T outputComponents) :
    Option (VectorImage T) :=
  match ComposeImage
      (filterChannels bilateral image domainSigma rangeSigma memChannel memBlurred) with
  | none => none
  | some composed => DeepCopyVectorImage composed outputComponents memOutput

/-! ## Concrete rasters -/

/-- The two-channel raster `[[(1, 10), (2, 20)]]`. -/
def twoChannels : VectorImage Int :=
  { region := { indexX := 0, indexY := 0, sizeX := 2, sizeY := 1 }
    numberOfComponents := 2
    buffer := [[1, 10], [2, 20]]
    hbuf := rfl
    hpix := by decide }

/-- A filter that keeps the region: it adds 1 to every pixel. -/
def addOne (_ _ : Unit) (im : Image Int) : Image Int :=
  { region := im.region
    buffer := im.buffer.map (fun v => v + 1)
    hbuf := by rw [List.length_map]; exact im.hbuf }


/-- A colour with the three components equal to `q`. -/
def gray (q : ℚ) : Vec3 FloatVal :=
  { c0 := FloatVal.num q, c1 := FloatVal.num q, c2 := FloatVal.num q }

/-- The colour raster `[[(10,10,10), (20,20,20)], [(30,30,30), (40,40,40)]]`. -/
def colors2x2 : Image (Vec3 FloatVal) :=
  { region := { indexX := 0, indexY := 0, sizeX := 2, sizeY := 2 }
    buffer := [gray 10, gray 20, gray 30, gray 40]
    hbuf := rfl }

/-- The label raster `[[0, 5]]`: the ids 1 to 4 occur in no pixel. -/
def labels0and5 : Image Int :=
  { region := { indexX := 0, indexY := 0, sizeX := 2, sizeY := 1 }
    buffer := [0, 5]
    hbuf := rfl }

/-- The label raster `[[7, 7], [7, 7]]`: a single label. -/
def labels7 : Image Int :=
  { region := { indexX := 0, indexY := 0, sizeX := 2, sizeY := 2 }
    buffer := [7, 7, 7, 7]
    hbuf := rfl }

/-- The colour raster `[[(1,1,1), (2,2,2)], [(3,3,3), (4,4,4)]]`. -/
def colors2x2b : Image (Vec3 FloatVal) :=
  { region := { indexX := 0, indexY := 0, sizeX := 2, sizeY := 2 }
    buffer := [gray 1, gray 2, gray 3, gray 4]
    hbuf := rfl }

/-- The colour raster `[[(10,10,10), (20,20,20)]]`. -/
def colors2x1 : Image (Vec3 FloatVal) :=
  { region := { indexX := 0, indexY := 0, sizeX := 2, sizeY := 1 }
    buffer := [gray 10, gray 20]
    hbuf := rfl }

/-- A 2 by 2 raster `[[1, 2], [3, 4]]`. -/
def raster2x2 : Image Int :=
  { region := { indexX := 0, indexY := 0, sizeX := 2, sizeY := 2 }
    buffer := [1, 2, 3, 4]
    hbuf := rfl }

/-- The label raster `[[5, 5], [10, 10]]`. -/
def labels5and10 : Image Int :=
  { region := { indexX := 0, indexY := 0, sizeX := 2, sizeY := 2 }
    buffer := [5, 5, 10, 10]
    hbuf := rfl }

/-- The dense label raster `[[0, 0], [1, 1]]`. -/
def labels0and1 : Image Int :=
  { region := { indexX := 0, indexY := 0, sizeX := 2, sizeY := 2 }
    buffer := [0, 0, 1, 1]
    hbuf := rfl }

/-! ## Lemmas on images -/

theorem Image.eq_of_buffer {T : Type} (a b : Image T) (hr : a.region = b.region)
    (hb : a.buffer = b.buffer) : a = b := by
  cases a; cases b; cases hr; cases hb; rfl

/-- The offset of the index of the `k`-th pixel is `k`. -/
theorem ImageRegion.computeOffset_indexOf (r : ImageRegion) (k : Nat) :
    r.computeOffset (r.indexOf k) = (k : Int) := by
  simp only [ImageRegion.computeOffset, ImageRegion.indexOf, add_sub_cancel_left]
  have h := Nat.div_add_mod k r.sizeX
  have h2 : ((k / r.sizeX * r.sizeX + k % r.sizeX : Nat) : Int) = (k : Int) := by
    rw [Nat.mul_comm, h]
  rw [← h2, Nat.cast_add, Nat.cast_mul]

/-- Reading back the pixel under a region iterator: `GetPixel(GetIndex())`
is the buffer entry at the iterator's offset. -/
theorem Image.GetPixel_indexOf {T : Type} (image : Image T) (k : Nat) :
    image.GetPixel (image.region.indexOf k) = image.buffer[k]? := by
  simp [Image.GetPixel, ImageRegion.computeOffset_indexOf]

/-! ## DeepCopy -/

theorem copyLoop_overrun {T : Type} {n : Nat} (pending : List T) :
    ∀ (pos : Nat) (out : PixelContainer T n) (over : List T), pos + pending.length ≤ n →
      (copyLoop pending pos out over).2 = over := by
  induction pending with
  | nil => intro pos out over _; rfl
  | cons v pending ih =>
    intro pos out over h
    simp only [List.length_cons] at h
    have hpos : pos < n := by omega
    simp only [copyLoop, if_pos hpos]
    exact ih (pos + 1) _ over (by omega)

theorem copyLoop_getElem? {T : Type} {n : Nat} (pending : List T) :
    ∀ (pos : Nat) (out : PixelContainer T n) (over : List T) (k : Nat),
      pos + pending.length ≤ n →
      (copyLoop pending pos out over).1.1[k]? =
        if pos ≤ k ∧ k < pos + pending.length then pending[k - pos]? else out.1[k]? := by
  induction pending with
  | nil =>
    intro pos out over k _
    have : ¬ (pos ≤ k ∧ k < pos + ([] : List T).length) := by simp
    rw [if_neg this]; rfl
  | cons v pending ih =>
    intro pos out over k h
    simp only [List.length_cons] at h
    have hpos : pos < n := by omega
    simp only [copyLoop, if_pos hpos]
    rw [ih (pos + 1) _ over k (by omega)]
    by_cases hk : pos + 1 ≤ k ∧ k < pos + 1 + pending.length
    · have hk2 : pos ≤ k ∧ k < pos + (v :: pending).length := by
        simp only [List.length_cons]; omega
      rw [if_pos hk, if_pos hk2]
      obtain ⟨d, rfl⟩ : ∃ d, k = pos + 1 + d := ⟨k - (pos + 1), by omega⟩
      have e1 : pos + 1 + d - (pos + 1) = d := by omega
      have e2 : pos + 1 + d - pos = d + 1 := by omega
      rw [e1, e2, List.getElem?_cons_succ]
    · rw [if_neg hk]
      by_cases hkp : k = pos
      · subst hkp
        have hk2 : k ≤ k ∧ k < k + (v :: pending).length := by
          simp only [List.length_cons]; omega
        rw [if_pos hk2]
        simp only [PixelContainer.write, Nat.sub_self, List.getElem?_cons_zero]
        rw [List.getElem?_set_self (by rw [out.2]; exact hpos)]
      · have hk2 : ¬ (pos ≤ k ∧ k < pos + (v :: pending).length) := by
          simp only [List.length_cons]; omega
        rw [if_neg hk2]
        simp only [PixelContainer.write]
        rw [List.getElem?_set_ne (fun h => hkp h.symm)]

/-- A copy over the full region reproduces the buffer of the source. -/
theorem copyLoop_full {T : Type} (input : Image T) (mem : Nat → T) :
    (copyLoop input.buffer 0 (Allocate input.region mem) []).1.1 = input.buffer ∧
    (copyLoop input.buffer 0 (Allocate input.region mem) []).2 = [] := by
  have hlen : 0 + input.buffer.length ≤ input.region.numberOfPixels := by
    rw [input.hbuf]; omega
  refine ⟨?_, copyLoop_overrun _ _ _ _ hlen⟩
  apply List.ext_getElem?
  intro k
  rw [copyLoop_getElem? _ _ _ _ k hlen]
  by_cases hk : k < input.buffer.length
  · rw [if_pos ⟨Nat.zero_le _, by omega⟩]; rfl
  · rw [if_neg (by omega)]
    have hal := (Allocate input.region mem).2
    have hin := input.hbuf
    rw [List.getElem?_eq_none (by omega), List.getElem?_eq_none (by omega)]

/-! ## The set of unique labels -/

theorem mem_setInsert (v x : Int) (s : List Int) : x ∈ setInsert v s ↔ x = v ∨ x ∈ s := by
  induction s with
  | nil => simp [setInsert]
  | cons u rest ih =>
    unfold setInsert
    by_cases h1 : v < u
    · simp [h1]
    · by_cases h2 : v = u
      · subst h2; simp
      · simp only [if_neg h1, if_neg h2, List.mem_cons, ih]
        tauto

theorem setInsert_sorted (v : Int) (s : List Int) (hs : s.Sorted (· < ·)) :
    (setInsert v s).Sorted (· < ·) := by
  induction s with
  | nil => simp [setInsert]
  | cons u rest ih =>
    have hs2 := List.sorted_cons.1 hs
    unfold setInsert
    by_cases h1 : v < u
    · rw [if_pos h1]
      refine List.sorted_cons.2 ⟨?_, hs⟩
      intro b hb
      rcases List.mem_cons.1 hb with rfl | hb
      · exact h1
      · exact lt_trans h1 (hs2.1 b hb)
    · by_cases h2 : v = u
      · rw [if_neg h1, if_pos h2]; exact hs
      · rw [if_neg h1, if_neg h2]
        refine List.sorted_cons.2 ⟨?_, ih hs2.2⟩
        intro b hb
        rcases (mem_setInsert v b rest).1 hb with rfl | hb
        · omega
        · exact hs2.1 b hb

theorem foldl_setInsert (pixels : List Int) :
    ∀ s : List Int, s.Sorted (· < ·) →
      (pixels.foldl (fun s v => setInsert v s) s).Sorted (· < ·) ∧
      ∀ x, x ∈ pixels.foldl (fun s v => setInsert v s) s ↔ x ∈ s ∨ x ∈ pixels := by
  induction pixels with
  | nil => intro s hs; simp [hs]
  | cons v pixels ih =>
    intro s hs
    obtain ⟨h1, h2⟩ := ih (setInsert v s) (setInsert_sorted v s hs)
    refine ⟨h1, fun x => ?_⟩
    rw [List.foldl_cons, h2, mem_setInsert, List.mem_cons]
    tauto

theorem collectUniqueLabels_sorted (pixels : List Int) :
    (collectUniqueLabels pixels).Sorted (· < ·) :=
  (foldl_setInsert pixels [] List.sorted_nil).1

theorem mem_collectUniqueLabels (pixels : List Int) (x : Int) :
    x ∈ collectUniqueLabels pixels ↔ x ∈ pixels := by
  unfold collectUniqueLabels
  rw [(foldl_setInsert pixels [] List.sorted_nil).2]
  simp

theorem collectUniqueLabels_nodup (pixels : List Int) : (collectUniqueLabels pixels).Nodup :=
  (collectUniqueLabels_sorted pixels).nodup

/-- The set holds as many labels as the raster has distinct values. -/
theorem collectUniqueLabels_length (pixels : List Int) :
    (collectUniqueLabels pixels).length = pixels.dedup.length := by
  apply List.Perm.length_eq
  rw [List.perm_ext_iff_of_nodup (collectUniqueLabels_nodup pixels) (List.nodup_dedup pixels)]
  intro a
  rw [mem_collectUniqueLabels, List.mem_dedup]

/-- In an ascending list of integers that are all at least `c`, the element at
position `i` is at least `c + i`. -/
theorem indexOf_le_of_sorted (l : List Int) :
    ∀ c : Int, l.Sorted (· < ·) → (∀ v ∈ l, c ≤ v) → ∀ v ∈ l, c + (l.indexOf v : Int) ≤ v := by
  induction l with
  | nil => intro c _ _ v hv; simp at hv
  | cons a l ih =>
    intro c hs hc v hv
    have hs2 := List.sorted_cons.1 hs
    by_cases hva : a = v
    · subst hva; rw [List.indexOf_cons_self]; simpa using hc a (List.mem_cons_self _ _)
    · have hvl : v ∈ l := by
        rcases List.mem_cons.1 hv with h | h
        · exact absurd h.symm hva
        · exact h
      rw [List.indexOf_cons_ne _ hva]
      have hca := hc a (List.mem_cons_self _ _)
      have := ih (c + 1) hs2.2 (fun w hw => by have := hs2.1 w hw; omega) v hvl
      push_cast
      omega

/-- Position in an ascending list is strictly monotone. -/
theorem indexOf_lt_of_sorted (l : List Int) (hs : l.Sorted (· < ·)) (a b : Int)
    (ha : a ∈ l) (hb : b ∈ l) (hab : a < b) : l.indexOf a < l.indexOf b := by
  by_contra hcon
  have hle : l.indexOf b ≤ l.indexOf a := Nat.le_of_not_lt hcon
  have hia : l.indexOf a < l.length := List.indexOf_lt_length.2 ha
  have hib : l.indexOf b < l.length := List.indexOf_lt_length.2 hb
  rcases Nat.lt_or_eq_of_le hle with hlt | heq
  · have := (List.pairwise_iff_getElem.1 hs) _ _ hib hia hlt
    rw [List.getElem_indexOf, List.getElem_indexOf] at this
    omega
  · have h1 := List.getElem_indexOf hia
    have h2 := List.getElem_indexOf hib
    have : a = b := by rw [← h1, ← h2]; congr 1; exact heq.symm
    omega

/-! ## The rewrite loops of RelabelSequential -/

theorem rewriteStep_eq {region : ImageRegion} (sh : Bool) (label : Int) (id : Nat)
    (m : RelabelMemory region) (k : Nat) :
    rewriteStep sh label id m k =
      if m.input.1[k]? = some label then m.setOutput sh k (id : Int) else m := by
  unfold rewriteStep
  rw [Image.GetPixel_indexOf]

/-- The first `j` iterations of a pass, output with storage of its own. -/
theorem rewritePrefix_separate {region : ImageRegion} (label : Int) (id : Nat)
    (m : RelabelMemory region) (j : Nat) :
    ((List.range j).foldl (rewriteStep false label id) m).input = m.input ∧
    ∀ k, ((List.range j).foldl (rewriteStep false label id) m).output.1[k]? =
      if k < j ∧ m.input.1[k]? = some label then some (id : Int) else m.output.1[k]? := by
  induction j with
  | zero => simp
  | succ j ih =>
    obtain ⟨ih1, ih2⟩ := ih
    rw [List.range_succ, List.foldl_append, List.foldl_cons, List.foldl_nil, rewriteStep_eq, ih1]
    by_cases hj : m.input.1[j]? = some label
    · rw [if_pos hj]
      refine ⟨by simp [RelabelMemory.setOutput, ih1], fun k => ?_⟩
      have hjn : j < region.numberOfPixels := by
        have := (List.getElem?_eq_some.1 hj).1
        rw [m.input.2] at this; exact this
      simp only [RelabelMemory.setOutput, PixelContainer.write, Bool.false_eq_true, if_false]
      by_cases hkj : k = j
      · subst hkj
        rw [List.getElem?_set_self (by
          rw [((List.range k).foldl (rewriteStep false label id) m).output.2]; exact hjn)]
        rw [if_pos ⟨Nat.lt_succ_self k, hj⟩]
      · rw [List.getElem?_set_ne (fun h => hkj h.symm), ih2 k]
        by_cases hk : k < j
        · have h1 : (k < j ∧ m.input.1[k]? = some label) ↔
              (k < j + 1 ∧ m.input.1[k]? = some label) := by
            constructor
            · rintro ⟨_, h⟩; exact ⟨by omega, h⟩
            · rintro ⟨_, h⟩; exact ⟨hk, h⟩
          simp only [h1]
        · rw [if_neg (fun h => hk h.1), if_neg (fun h => by omega)]
    · rw [if_neg hj]
      refine ⟨ih1, fun k => ?_⟩
      rw [ih2 k]
      by_cases hkj : k = j
      · subst hkj
        rw [if_neg (fun h => hj h.2), if_neg (fun h => hj h.2)]
      · have h1 : (k < j ∧ m.input.1[k]? = some label) ↔
            (k < j + 1 ∧ m.input.1[k]? = some label) := by
          constructor
          · rintro ⟨_, h⟩; exact ⟨by omega, h⟩
          · rintro ⟨_, h⟩; exact ⟨by omega, h⟩
        simp only [h1]

/-- One pass, output with storage of its own: a pixel is rewritten exactly when
the input holds `label` there. -/
theorem rewritePass_separate {region : ImageRegion} (label : Int) (id : Nat)
    (m : RelabelMemory region) :
    (rewritePass false label id m).input = m.input ∧
    ∀ k : Nat, (rewritePass false label id m).output.1[k]? =
      if m.input.1[k]? = some label then some (id : Int) else m.output.1[k]? := by
  obtain ⟨h1, h2⟩ := rewritePrefix_separate label id m region.numberOfPixels
  refine ⟨h1, fun k => ?_⟩
  unfold rewritePass
  rw [h2 k]
  by_cases hk : m.input.1[k]? = some label
  · have hkn : k < region.numberOfPixels := by
      have := (List.getElem?_eq_some.1 hk).1
      rw [m.input.2] at this; exact this
    rw [if_pos ⟨hkn, hk⟩, if_pos hk]
  · rw [if_neg (fun h => hk h.2), if_neg hk]

/-- The first `j` iterations of a pass when `input` and `output` share their
storage: the pixel under the iterator has not been rewritten in this pass when
it is read. -/
theorem rewritePrefix_shared {region : ImageRegion} (label : Int) (id : Nat)
    (m : RelabelMemory region) (hm : m.input.1 = m.output.1) (j : Nat) :
    ((List.range j).foldl (rewriteStep true label id) m).input.1 =
      ((List.range j).foldl (rewriteStep true label id) m).output.1 ∧
    ∀ k, ((List.range j).foldl (rewriteStep true label id) m).output.1[k]? =
      if k < j ∧ m.output.1[k]? = some label then some (id : Int) else m.output.1[k]? := by
  induction j with
  | zero => simp [hm]
  | succ j ih =>
    obtain ⟨ih1, ih2⟩ := ih
    rw [List.range_succ, List.foldl_append, List.foldl_cons, List.foldl_nil, rewriteStep_eq, ih1]
    have hread : ((List.range j).foldl (rewriteStep true label id) m).output.1[j]? =
        m.output.1[j]? := by
      rw [ih2 j, if_neg (fun h => by omega)]
    rw [hread]
    by_cases hj : m.output.1[j]? = some label
    · rw [if_pos hj]
      refine ⟨by simp [RelabelMemory.setOutput, PixelContainer.write, ih1], fun k => ?_⟩
      have hjn : j < region.numberOfPixels := by
        have := (List.getElem?_eq_some.1 hj).1
        rw [m.output.2] at this; exact this
      simp only [RelabelMemory.setOutput, PixelContainer.write, if_true]
      by_cases hkj : k = j
      · subst hkj
        rw [List.getElem?_set_self (by
          rw [((List.range k).foldl (rewriteStep true label id) m).output.2]; exact hjn)]
        rw [if_pos ⟨Nat.lt_succ_self k, hj⟩]
      · rw [List.getElem?_set_ne (fun h => hkj h.symm), ih2 k]
        by_cases hk : k < j
        · have h1 : (k < j ∧ m.output.1[k]? = some label) ↔
              (k < j + 1 ∧ m.output.1[k]? = some label) := by
            constructor
            · rintro ⟨_, h⟩; exact ⟨by omega, h⟩
            · rintro ⟨_, h⟩; exact ⟨hk, h⟩
          simp only [h1]
        · rw [if_neg (fun h => hk h.1), if_neg (fun h => by omega)]
    · rw [if_neg hj]
      refine ⟨ih1, fun k => ?_⟩
      rw [ih2 k]
      by_cases hkj : k = j
      · subst hkj
        rw [if_neg (fun h => hj h.2), if_neg (fun h => hj h.2)]
      · have h1 : (k < j ∧ m.output.1[k]? = some label) ↔
            (k < j + 1 ∧ m.output.1[k]? = some label) := by
          constructor
          · rintro ⟨_, h⟩; exact ⟨by omega, h⟩
          · rintro ⟨_, h⟩; exact ⟨by omega, h⟩
        simp only [h1]

/-- One pass with shared storage. -/
theorem rewritePass_shared {region : ImageRegion} (label : Int) (id : Nat)
    (m : RelabelMemory region) (hm : m.input.1 = m.output.1) :
    (rewritePass true label id m).input.1 = (rewritePass true label id m).output.1 ∧
    ∀ k : Nat, (rewritePass true label id m).output.1[k]? =
      if m.output.1[k]? = some label then some (id : Int) else m.output.1[k]? := by
  obtain ⟨h1, h2⟩ := rewritePrefix_shared label id m hm region.numberOfPixels
  refine ⟨h1, fun k => ?_⟩
  unfold rewritePass
  rw [h2 k]
  by_cases hk : m.output.1[k]? = some label
  · have hkn : k < region.numberOfPixels := by
      have := (List.getElem?_eq_some.1 hk).1
      rw [m.output.2] at this; exact this
    rw [if_pos ⟨hkn, hk⟩, if_pos hk]
  · rw [if_neg (fun h => hk h.2), if_neg hk]

/-- All passes, output with storage of its own: a pixel whose input value is
in the list of labels ends with the counter that its label was given. -/
theorem rewriteAll_separate {region : ImageRegion} (labels : List Int) :
    ∀ (id : Nat) (m : RelabelMemory region), labels.Nodup →
      (rewriteAll false labels id m).input = m.input ∧
      ∀ (k : Nat) (v : Int), m.input.1[k]? = some v →
        (rewriteAll false labels id m).output.1[k]? =
          if v ∈ labels then some ((id + labels.indexOf v : Nat) : Int) else m.output.1[k]? := by
  induction labels with
  | nil => intro id m _; simp [rewriteAll]
  | cons label rest ih =>
    intro id m hnd
    have hnd2 := List.nodup_cons.1 hnd
    obtain ⟨p1, p2⟩ := rewritePass_separate label id m
    obtain ⟨h1, h2⟩ := ih (id + 1) (rewritePass false label id m) hnd2.2
    simp only [rewriteAll]
    refine ⟨h1.trans p1, fun k v hv => ?_⟩
    rw [h2 k v (by rw [p1]; exact hv), p2 k, hv]
    by_cases hvl : v = label
    · subst hvl
      rw [if_neg hnd2.1, if_pos rfl, if_pos (List.mem_cons_self _ _), List.indexOf_cons_self]
      rfl
    · have hne : ¬ (some v = some label) := fun h => hvl (Option.some.inj h)
      have hne2 : label ≠ v := fun h => hvl h.symm
      by_cases hvr : v ∈ rest
      · rw [if_pos hvr, if_pos (List.mem_cons_of_mem _ hvr), List.indexOf_cons_ne _ hne2]
        congr 2
        omega
      · rw [if_neg hvr, if_neg hne, if_neg]
        intro h
        rcases List.mem_cons.1 h with h | h
        · exact hvl h
        · exact hvr h

/-- All passes with shared storage, for an ascending list of non-negative
labels: when the pass of a label starts, the pixels already rewritten hold
counters below that label, so no pass rewrites a pixel a second time. -/
theorem rewriteAll_shared {region : ImageRegion} (orig labels : List Int)
    (hs : labels.Sorted (· < ·)) (hnn : ∀ v ∈ labels, (0 : Int) ≤ v) :
    ∀ (rest pre : List Int) (m : RelabelMemory region), labels = pre ++ rest →
      m.input.1 = m.output.1 →
      (∀ (k : Nat) (v : Int), orig[k]? = some v →
        m.output.1[k]? = some (if v ∈ pre then (labels.indexOf v : Int) else v)) →
      ∀ (k : Nat) (v : Int), orig[k]? = some v →
        (rewriteAll true rest pre.length m).output.1[k]? =
          some (if v ∈ labels then (labels.indexOf v : Int) else v) := by
  intro rest
  induction rest with
  | nil =>
    intro pre m hl _ hinv k v hv
    simp only [List.append_nil] at hl
    simp only [rewriteAll]
    rw [hinv k v hv, hl]
  | cons label rest ih =>
    intro pre m hl hm hinv k v hv
    have hnd : labels.Nodup := hs.nodup
    have hlabel_mem : label ∈ labels := by rw [hl]; simp
    have hlabel_pre : label ∉ pre := by
      intro h
      rw [hl] at hnd
      exact (List.disjoint_of_nodup_append hnd) h (List.mem_cons_self _ _)
    have hidx : labels.indexOf label = pre.length := by
      rw [hl, List.indexOf_append_of_not_mem hlabel_pre, List.indexOf_cons_self]; rfl
    have hge : (pre.length : Int) ≤ label := by
      have := indexOf_le_of_sorted labels 0 hs hnn label hlabel_mem
      rw [hidx] at this; omega
    obtain ⟨p1, p2⟩ := rewritePass_shared label pre.length m hm
    have hl2 : labels = (pre ++ [label]) ++ rest := by rw [hl]; simp
    have hlen : (pre ++ [label]).length = pre.length + 1 := by simp
    have key := ih (pre ++ [label]) (rewritePass true label pre.length m) hl2 p1 ?_ k v hv
    · rw [hlen] at key
      simp only [rewriteAll]
      exact key
    · intro k2 v2 hv2
      rw [p2 k2, hinv k2 v2 hv2]
      by_cases hvp : v2 ∈ pre
      · have hlt : labels.indexOf v2 < pre.length := by
          rw [hl, List.indexOf_append_of_mem hvp]
          exact List.indexOf_lt_length.2 hvp
        have hne : ¬ (some (labels.indexOf v2 : Int) = some label) := by
          intro h
          have := Option.some.inj h
          omega
        rw [if_pos hvp, if_neg hne, if_pos (List.mem_append_left _ hvp)]
      · rw [if_neg hvp]
        by_cases hvl : v2 = label
        · subst hvl
          rw [if_pos rfl, if_pos (by simp), hidx]
        · have hne : ¬ (some v2 = some label) := fun h => hvl (Option.some.inj h)
          rw [if_neg hne, if_neg]
          intro h
          rcases List.mem_append.1 h with h | h
          · exact hvp h
          · exact hvl (by simpa using h)

/-- The new label of an old label: its position in the ascending list of the
distinct input values. -/
theorem RelabelSequential_buffer (input : Image Int) (mem : Nat → Int) :
    (RelabelSequential input mem).buffer =
      input.buffer.map (fun v => ((collectUniqueLabels input.buffer).indexOf v : Int)) := by
  apply List.ext_getElem?
  intro k
  rw [List.getElem?_map]
  obtain ⟨_, h2⟩ := rewriteAll_separate (collectUniqueLabels input.buffer) 0
    ({ input := ⟨input.buffer, input.hbuf⟩, output := Allocate input.region mem } :
      RelabelMemory input.region) (collectUniqueLabels_nodup input.buffer)
  cases hk : input.buffer[k]? with
  | none =>
    have hlen : input.buffer.length ≤ k := List.getElem?_eq_none_iff.1 hk
    have hout := (RelabelSequential input mem).hbuf
    have hin := input.hbuf
    have hreg : (RelabelSequential input mem).region = input.region := rfl
    rw [List.getElem?_eq_none (by rw [hout, hreg, ← hin]; exact hlen)]
    rfl
  | some v =>
    have := h2 k v hk
    rw [if_pos ((mem_collectUniqueLabels _ _).2 (List.getElem?_mem hk)), Nat.zero_add] at this
    exact this

/-- When every label is non-negative, the call that shares the storage of
`input` and `output` computes the same buffer. -/
theorem RelabelSequentialInPlace_buffer (input : Image Int)
    (hnn : ∀ v ∈ input.buffer, (0 : Int) ≤ v) :
    (RelabelSequentialInPlace input).buffer =
      input.buffer.map (fun v => ((collectUniqueLabels input.buffer).indexOf v : Int)) := by
  apply List.ext_getElem?
  intro k
  rw [List.getElem?_map]
  have h2 := @rewriteAll_shared input.region input.buffer
    (collectUniqueLabels input.buffer) (collectUniqueLabels_sorted input.buffer)
    (fun v hv => hnn v ((mem_collectUniqueLabels _ _).1 hv))
    (collectUniqueLabels input.buffer) []
    { input := ⟨input.buffer, input.hbuf⟩, output := ⟨input.buffer, input.hbuf⟩ }
    (by simp) rfl (fun k v hv => by simpa using hv)
  cases hk : input.buffer[k]? with
  | none =>
    have hlen : input.buffer.length ≤ k := List.getElem?_eq_none_iff.1 hk
    have hout := (RelabelSequentialInPlace input).hbuf
    have hin := input.hbuf
    have hreg : (RelabelSequentialInPlace input).region = input.region := rfl
    rw [List.getElem?_eq_none (by rw [hout, hreg, ← hin]; exact hlen)]
    rfl
  | some v =>
    have := h2 k v hk
    rw [if_pos ((mem_collectUniqueLabels _ _).2 (List.getElem?_mem hk))] at this
    exact this

/-! ## The passes of ColorLabelsByAverageColor -/

theorem foldl_max_spec (rest : List Int) :
    ∀ v : Int, v ≤ rest.foldl (fun m w => if m < w then w else m) v ∧
      (∀ w ∈ rest, w ≤ rest.foldl (fun m w => if m < w then w else m) v) ∧
      (rest.foldl (fun m w => if m < w then w else m) v = v ∨
        rest.foldl (fun m w => if m < w then w else m) v ∈ rest) := by
  induction rest with
  | nil => intro v; simp
  | cons a rest ih =>
    intro v
    have ih2 := ih (if v < a then a else v)
    simp only [List.foldl_cons, List.mem_cons]
    by_cases hva : v < a
    · simp only [if_pos hva] at ih2 ⊢
      obtain ⟨h1, h2, h3⟩ := ih2
      refine ⟨by omega, ?_, ?_⟩
      · intro w hw
        rcases hw with rfl | hw
        · exact h1
        · exact h2 w hw
      · rcases h3 with h3 | h3
        · right; left; exact h3
        · right; right; exact h3
    · simp only [if_neg hva] at ih2 ⊢
      obtain ⟨h1, h2, h3⟩ := ih2
      refine ⟨h1, ?_, ?_⟩
      · intro w hw
        rcases hw with rfl | hw
        · omega
        · exact h2 w hw
      · rcases h3 with h3 | h3
        · left; exact h3
        · right; right; exact h3

/-- The maximum scan of a non-empty raster returns a pixel value that no pixel
exceeds. -/
theorem MaxValue_spec (image : Image Int) (hne : image.buffer ≠ []) :
    ∃ mx : Int, MaxValue image = some mx ∧ mx ∈ image.buffer ∧ ∀ v ∈ image.buffer, v ≤ mx := by
  unfold MaxValue
  cases hb : image.buffer with
  | nil => exact absurd hb hne
  | cons v rest =>
    obtain ⟨h1, h2, h3⟩ := foldl_max_spec rest v
    refine ⟨_, rfl, ?_, ?_⟩
    · rcases h3 with h3 | h3
      · rw [h3]; exact List.mem_cons_self _ _
      · exact List.mem_cons_of_mem _ h3
    · intro w hw
      rcases List.mem_cons.1 hw with rfl | hw
      · exact h1
      · exact h2 w hw

theorem sum_set_succ (l : List Nat) :
    ∀ (i c : Nat), l[i]? = some c → (l.set i (c + 1)).sum = l.sum + 1 := by
  induction l with
  | nil => intro i c h; simp at h
  | cons a l ih =>
    intro i c h
    cases i with
    | zero =>
      simp only [List.getElem?_cons_zero, Option.some.injEq] at h
      subst h
      simp only [List.set_cons_zero, List.sum_cons]; omega
    | succ i =>
      rw [List.getElem?_cons_succ] at h
      simp only [List.set_cons_succ, List.sum_cons, ih i c h]; omega

/-- The accumulation loop on labels that are valid subscripts, over a colour
image of the region of the label image: it runs to its end, and each entry of
`labelCount` has grown by the number of visited pixels with that label. -/
theorem accumulateLoop_spec {C : Type} (P : PixelOps C) (image : Image (Vec3 C))
    (pending : List Int) :
    ∀ (k : Nat) (acc : Accumulators), k + pending.length ≤ image.buffer.length →
      (∀ v ∈ pending, 0 ≤ v ∧ v.toNat < acc.labelCount.length) →
      acc.segmentFloatColors.length = acc.labelCount.length →
      ∃ acc' : Accumulators, accumulateLoop P image image.region pending k acc = some acc' ∧
        acc'.labelCount.length = acc.labelCount.length ∧
        acc'.segmentFloatColors.length = acc.labelCount.length ∧
        acc'.labelCount.sum = acc.labelCount.sum + pending.length ∧
        ∀ i : Nat, acc'.labelCount[i]? =
          (acc.labelCount[i]?).map (fun c => c + pending.count (i : Int)) := by
  induction pending with
  | nil =>
    intro k acc _ _ hlen
    refine ⟨acc, rfl, rfl, hlen, by simp, fun i => ?_⟩
    cases acc.labelCount[i]? <;> simp
  | cons label pending ih =>
    intro k acc hk hv hlen
    simp only [List.length_cons] at hk
    obtain ⟨h0, hlt⟩ := hv label (List.mem_cons_self _ _)
    obtain ⟨count, hcount⟩ : ∃ count, acc.labelCount[label.toNat]? = some count :=
      ⟨_, List.getElem?_eq_getElem hlt⟩
    obtain ⟨sum, hsum⟩ : ∃ sum, acc.segmentFloatColors[label.toNat]? = some sum :=
      ⟨_, List.getElem?_eq_getElem (by rw [hlen]; exact hlt)⟩
    obtain ⟨color, hcolor⟩ : ∃ color, image.GetPixel (image.region.indexOf k) = some color := by
      rw [Image.GetPixel_indexOf]
      exact ⟨_, List.getElem?_eq_getElem (by omega)⟩
    obtain ⟨acc', e1, e2, e3, e4, e5⟩ := ih (k + 1)
      { labelCount := acc.labelCount.set label.toNat (count + 1)
        segmentFloatColors :=
          acc.segmentFloatColors.set label.toNat (sum.addFloat (toFloatColor P color)) }
      (by omega)
      (fun v hv2 => by
        have := hv v (List.mem_cons_of_mem _ hv2)
        simpa using this)
      (by simp [hlen])
    refine ⟨acc', ?_, ?_, ?_, ?_, fun i => ?_⟩
    · simp only [accumulateLoop, if_pos h0, hcount, hcolor, hsum]
      exact e1
    · simpa using e2
    · simpa using e3
    · rw [e4]
      simp only [List.length_cons]
      rw [sum_set_succ _ _ _ hcount]; omega
    · rw [e5 i]
      simp only
      by_cases hi : label.toNat = i
      · have hli : (i : Int) = label := by omega
        rw [hli, List.count_cons_self, ← hi, List.getElem?_set_self hlt, hcount]
        simp only [Option.map_some', Option.some.injEq]
        omega
      · have hli : (i : Int) ≠ label := by omega
        rw [List.getElem?_set_ne hi, List.count_cons_of_ne hli]

/-- The first `j` iterations of the loop over `segmentColors`. -/
theorem averagePrefix_spec {C : Type} (P : PixelOps C) (labelCount : List Nat)
    (colors : List (Vec3 C)) (hlen : labelCount.length = colors.length) (j : Nat)
    (hj : j ≤ colors.length) :
    ∃ l : List (Vec3 C),
      (List.range j).foldl (averageStep P labelCount) (some colors) = some l ∧
      l.length = colors.length ∧
      ∀ (i : Nat) (c : Vec3 C) (n : Nat), colors[i]? = some c → labelCount[i]? = some n →
        l[i]? = some (if i < j then averagePixel P c n else c) := by
  induction j with
  | zero => exact ⟨colors, rfl, rfl, fun i c n hc _ => by simpa using hc⟩
  | succ j ih =>
    obtain ⟨l, h1, h2, h3⟩ := ih (by omega)
    obtain ⟨c, hc⟩ : ∃ c, colors[j]? = some c := ⟨_, List.getElem?_eq_getElem (by omega)⟩
    obtain ⟨n, hn⟩ : ∃ n, labelCount[j]? = some n := ⟨_, List.getElem?_eq_getElem (by omega)⟩
    have hlj : l[j]? = some c := by
      have := h3 j c n hc hn
      rwa [if_neg (Nat.lt_irrefl j)] at this
    refine ⟨l.set j (averagePixel P c n), ?_, by simp [h2], fun i c2 n2 hc2 hn2 => ?_⟩
    · rw [List.range_succ, List.foldl_append, h1]
      simp only [List.foldl_cons, List.foldl_nil, averageStep, hlj, hn]
    · by_cases hij : i = j
      · subst hij
        rw [hc] at hc2; rw [hn] at hn2
        cases hc2; cases hn2
        rw [List.getElem?_set_self (by omega), if_pos (Nat.lt_succ_self i)]
      · rw [List.getElem?_set_ne (fun h => hij h.symm), h3 i c2 n2 hc2 hn2]
        by_cases hlt : i < j
        · rw [if_pos hlt, if_pos (by omega)]
        · rw [if_neg hlt, if_neg (by omega)]

/-- The loop over `segmentColors` runs to its end and replaces every entry by
the quotient of that entry and the count of its label. -/
theorem averageLoop_spec {C : Type} (P : PixelOps C) (labelCount : List Nat)
    (colors : List (Vec3 C)) (hlen : labelCount.length = colors.length) :
    ∃ l : List (Vec3 C), averageLoop P labelCount colors = some l ∧
      l.length = colors.length ∧
      ∀ (i : Nat) (c : Vec3 C) (n : Nat), colors[i]? = some c → labelCount[i]? = some n →
        l[i]? = some (averagePixel P c n) := by
  obtain ⟨l, h1, h2, h3⟩ := averagePrefix_spec P labelCount colors hlen colors.length (le_refl _)
  refine ⟨l, h1, h2, fun i c n hc hn => ?_⟩
  rw [h3 i c n hc hn, if_pos (List.getElem?_eq_some.1 hc).1]

/-- The last loop on labels that are valid subscripts: it runs to its end, and
the pixel at the offset of each visited label is the entry of `segmentColors`
for that label. -/
theorem colorizeLoop_spec {C : Type} (segmentColors : List (Vec3 C)) (region : ImageRegion)
    (pending : List Int) :
    ∀ (k : Nat) (out : PixelContainer (Vec3 C) region.numberOfPixels),
      k + pending.length ≤ region.numberOfPixels →
      (∀ v ∈ pending, 0 ≤ v ∧ v.toNat < segmentColors.length) →
      ∃ out' : PixelContainer (Vec3 C) region.numberOfPixels,
        colorizeLoop segmentColors region pending k out = some out' ∧
        ∀ (i : Nat), out'.1[i]? =
          if k ≤ i ∧ i < k + pending.length then
            (pending[i - k]?).bind (fun v => segmentColors[v.toNat]?)
          else out.1[i]? := by
  induction pending with
  | nil =>
    intro k out _ _
    refine ⟨out, rfl, fun i => ?_⟩
    rw [if_neg (by simp)]
  | cons label pending ih =>
    intro k out hk hv
    simp only [List.length_cons] at hk
    obtain ⟨h0, hlt⟩ := hv label (List.mem_cons_self _ _)
    obtain ⟨color, hcolor⟩ : ∃ color, segmentColors[label.toNat]? = some color :=
      ⟨_, List.getElem?_eq_getElem hlt⟩
    have hoff : region.computeOffset (region.indexOf k) = (k : Int) :=
      ImageRegion.computeOffset_indexOf region k
    have hin : 0 ≤ (k : Int) ∧ (k : Int).toNat < region.numberOfPixels := by
      constructor <;> omega
    obtain ⟨out', e1, e2⟩ := ih (k + 1) (out.write k color) (by omega)
      (fun v hv2 => hv v (List.mem_cons_of_mem _ hv2))
    refine ⟨out', ?_, fun i => ?_⟩
    · have hin2 : 0 ≤ (k : Int) ∧ k < region.numberOfPixels := ⟨hin.1, by omega⟩
      simp only [colorizeLoop, if_pos h0, hcolor, hoff, Int.toNat_ofNat, if_pos hin2]
      exact e1
    · rw [e2 i]
      by_cases hi : k + 1 ≤ i ∧ i < k + 1 + pending.length
      · have hi2 : k ≤ i ∧ i < k + (label :: pending).length := by
          simp only [List.length_cons]; omega
        rw [if_pos hi, if_pos hi2]
        obtain ⟨d, rfl⟩ : ∃ d, i = k + 1 + d := ⟨i - (k + 1), by omega⟩
        have e3 : k + 1 + d - (k + 1) = d := by omega
        have e4 : k + 1 + d - k = d + 1 := by omega
        rw [e3, e4, List.getElem?_cons_succ]
      · rw [if_neg hi]
        by_cases hik : i = k
        · subst hik
          have hi2 : i ≤ i ∧ i < i + (label :: pending).length := by
            simp only [List.length_cons]; omega
          rw [if_pos hi2]
          simp only [PixelContainer.write, Nat.sub_self, List.getElem?_cons_zero,
            Option.some_bind]
          rw [List.getElem?_set_self (by rw [out.2]; omega), hcolor]
        · have hi2 : ¬ (k ≤ i ∧ i < k + (label :: pending).length) := by
            simp only [List.length_cons]; omega
          rw [if_neg hi2]
          simp only [PixelContainer.write]
          rw [List.getElem?_set_ne (fun h => hik h.symm)]

/-- The accumulation pass on a non-empty raster of non-negative labels, with a
colour image of the same region: it runs to its end, the vectors have
`maxLabel + 1` entries, and `labelCount` holds the number of pixels of each
label. -/
theorem accumulate_spec {C : Type} (P : PixelOps C) (image : Image (Vec3 C))
    (labelImage : Image Int) (hreg : image.region = labelImage.region)
    (hnn : ∀ v ∈ labelImage.buffer, (0 : Int) ≤ v) (hne : labelImage.buffer ≠ []) :
    ∃ (mx : Int) (acc : Accumulators), MaxValue labelImage = some mx ∧ 0 ≤ mx ∧
      (∀ v ∈ labelImage.buffer, v ≤ mx) ∧
      accumulate P image labelImage = some (mx.toNat, acc) ∧
      acc.labelCount.length = mx.toNat + 1 ∧
      acc.segmentFloatColors.length = mx.toNat + 1 ∧
      acc.labelCount.sum = labelImage.buffer.length ∧
      ∀ i : Nat, i ≤ mx.toNat →
        acc.labelCount[i]? = some (labelImage.buffer.count (i : Int)) := by
  obtain ⟨mx, hmx, hmem, hle⟩ := MaxValue_spec labelImage hne
  have hmx0 : 0 ≤ mx := hnn mx hmem
  have hlen : 0 + labelImage.buffer.length ≤ image.buffer.length := by
    rw [image.hbuf, labelImage.hbuf, hreg]; omega
  obtain ⟨acc, e1, e2, e3, e4, e5⟩ := accumulateLoop_spec P image labelImage.buffer 0
    { labelCount := List.replicate (mx.toNat + 1) 0
      segmentFloatColors := List.replicate (mx.toNat + 1)
        { c0 := FloatVal.num 0, c1 := FloatVal.num 0, c2 := FloatVal.num 0 } }
    hlen
    (fun v hv => by
      have h1 := hnn v hv
      have h2 := hle v hv
      simp only [List.length_replicate]
      constructor <;> omega)
    (by simp)
  rw [hreg] at e1
  refine ⟨mx, acc, hmx, hmx0, hle, ?_, ?_, ?_, ?_, fun i hi => ?_⟩
  · simp only [accumulate, hmx, e1]
  · simpa using e2
  · simpa using e3
  · rw [e4]; simp
  · rw [e5 i]
    simp only [List.getElem?_replicate, if_pos (Nat.lt_succ_of_le hi), Option.map_some',
      Nat.zero_add]

/-- The whole of `ColorLabelsByAverageColor` on a non-empty raster of
non-negative labels, with a colour image of the same region: the call runs to
its end; entry `i` of `segmentColors` is the quotient of the zero pixel and
`labelCount[i]`; every output pixel is the entry of `segmentColors` for the
label of that pixel. -/
theorem ColorLabelsByAverageColor_spec {C : Type} (P : PixelOps C) (image : Image (Vec3 C))
    (labelImage : Image Int) (mem : Nat → Vec3 C) (hreg : image.region = labelImage.region)
    (hnn : ∀ v ∈ labelImage.buffer, (0 : Int) ≤ v) (hne : labelImage.buffer ≠ []) :
    ∃ t : ColorLabels C, ColorLabelsByAverageColor P image labelImage mem = some t ∧
      accumulate P image labelImage =
        some (t.maxLabel, { labelCount := t.labelCount
                            segmentFloatColors := t.segmentFloatColors }) ∧
      t.segmentColors.length = t.maxLabel + 1 ∧
      (∀ (i n : Nat), t.labelCount[i]? = some n → t.segmentColors[i]? =
        some (averagePixel P { c0 := P.zero, c1 := P.zero, c2 := P.zero } n)) ∧
      t.output.region = labelImage.region ∧
      ∀ (k : Nat) (label : Int), labelImage.buffer[k]? = some label →
        t.output.buffer[k]? = t.segmentColors[label.toNat]? := by
  obtain ⟨mx, acc, _, _, hle, hacc, hl1, _, _, _⟩ :=
    accumulate_spec P image labelImage hreg hnn hne
  obtain ⟨colors, a1, a2, a3⟩ := averageLoop_spec P acc.labelCount
    (List.replicate (mx.toNat + 1) { c0 := P.zero, c1 := P.zero, c2 := P.zero })
    (by simp [hl1])
  rw [List.length_replicate] at a2
  obtain ⟨out, c1, c2⟩ := colorizeLoop_spec colors labelImage.region labelImage.buffer 0
    (Allocate labelImage.region mem)
    (by rw [labelImage.hbuf]; omega)
    (fun v hv => by
      have h1 := hnn v hv
      have h2 := hle v hv
      rw [a2]
      constructor <;> omega)
  refine ⟨{ maxLabel := mx.toNat
            labelCount := acc.labelCount
            segmentFloatColors := acc.segmentFloatColors
            segmentColors := colors
            output := { region := labelImage.region, buffer := out.1, hbuf := out.2 } },
    ?_, hacc, a2, fun i n hn => ?_, rfl, fun k label hk => ?_⟩
  · simp only [ColorLabelsByAverageColor, hacc, a1, c1]
  · have hi : i < mx.toNat + 1 := by
      have := (List.getElem?_eq_some.1 hn).1
      rw [hl1] at this; exact this
    exact a3 i _ n (by rw [List.getElem?_replicate, if_pos hi]) hn
  · have hkl : k < labelImage.buffer.length := (List.getElem?_eq_some.1 hk).1
    simp only
    rw [c2 k, if_pos ⟨Nat.zero_le _, by omega⟩, Nat.sub_zero, hk]
    rfl

/-- The call on the labels `[[0, 0], [1, 1]]` and the colours
`[[(10,10,10), (20,20,20)], [(30,30,30), (40,40,40)]]`, pixels of `float`
components. -/
theorem ColorLabelsByAverageColor_2x2 (mem : Nat → Vec3 FloatVal) :
    ColorLabelsByAverageColor floatPixel colors2x2 labels0and1 mem =
      some { maxLabel := 1
             labelCount := [2, 2]
             segmentFloatColors := [gray 30, gray 70]
             segmentColors := [gray 0, gray 0]
             output := { region := labels0and1.region
                         buffer := [gray 0, gray 0, gray 0, gray 0]
                         hbuf := rfl } } := by
  simp [ColorLabelsByAverageColor, accumulate, MaxValue, labels0and1, colors2x2, accumulateLoop,
    Image.GetPixel, ImageRegion.indexOf, ImageRegion.computeOffset, averageLoop, averageStep,
    colorizeLoop, Allocate, PixelContainer.write, floatPixel, averagePixel, FloatVal.divCount,
    toFloatColor, Vec3.addFloat, FloatVal.add, gray, List.range_succ, ImageRegion.numberOfPixels]
  norm_num

/-- The call on the labels `[[0, 5]]` and the colours `[[(10,10,10), (20,20,20)]]`,
pixels of `float` components. -/
theorem ColorLabelsByAverageColor_sparse (mem : Nat → Vec3 FloatVal) :
    ColorLabelsByAverageColor floatPixel colors2x1 labels0and5 mem =
      some { maxLabel := 5
             labelCount := [1, 0, 0, 0, 0, 1]
             segmentFloatColors := [gray 10, gray 0, gray 0, gray 0, gray 0, gray 20]
             segmentColors :=
               [gray 0, ⟨FloatVal.nan, FloatVal.nan, FloatVal.nan⟩,
                ⟨FloatVal.nan, FloatVal.nan, FloatVal.nan⟩,
                ⟨FloatVal.nan, FloatVal.nan, FloatVal.nan⟩,
                ⟨FloatVal.nan, FloatVal.nan, FloatVal.nan⟩, gray 0]
             output := { region := labels0and5.region
                         buffer := [gray 0, gray 0]
                         hbuf := rfl } } := by
  simp [ColorLabelsByAverageColor, accumulate, MaxValue, labels0and5, colors2x1, accumulateLoop,
    Image.GetPixel, ImageRegion.indexOf, ImageRegion.computeOffset, averageLoop, averageStep,
    colorizeLoop, Allocate, PixelContainer.write, floatPixel, averagePixel, FloatVal.divCount,
    toFloatColor, Vec3.addFloat, FloatVal.add, gray, List.range_succ, ImageRegion.numberOfPixels]

/-- With a negative label the shared-storage call goes wrong: on `[[-5, 0]]` the
first pass turns -5 into 0 and the second pass rewrites both pixels to 1, where
the call with a separate output gives `[[0, 1]]`. -/
theorem RelabelSequentialInPlace_negative_label :
    (RelabelSequentialInPlace ⟨⟨0, 0, 2, 1⟩, [-5, 0], rfl⟩).buffer = [1, 1] ∧
    (RelabelSequential ⟨⟨0, 0, 2, 1⟩, [-5, 0], rfl⟩ (fun _ => 7)).buffer = [0, 1] := by
  decide

/-! ## Claims on RelabelSequential -/

/-- C1: for every label raster with `U` distinct pixel values (the empty raster
included), the output of `RelabelSequential` has the region, and so the size, of
the input, and a value occurs in the output exactly when it is one of
`0, 1, ..., U - 1`. -/
theorem RelabelSequential_density (input : Image Int) (mem : Nat → Int) :
    (RelabelSequential input mem).region = input.region ∧
    (RelabelSequential input mem).buffer.length = input.buffer.length ∧
    ∀ v : Int, v ∈ (RelabelSequential input mem).buffer ↔
      0 ≤ v ∧ v < (distinctValues input : Int) := by
  refine ⟨rfl, ?_, fun v => ?_⟩
  · rw [RelabelSequential_buffer, List.length_map]
  · rw [RelabelSequential_buffer, List.mem_map, distinctValues, ← collectUniqueLabels_length]
    constructor
    · rintro ⟨a, ha, rfl⟩
      have := List.indexOf_lt_length.2 ((mem_collectUniqueLabels input.buffer a).2 ha)
      omega
    · rintro ⟨h0, hlt⟩
      have hj : v.toNat < (collectUniqueLabels input.buffer).length := by omega
      refine ⟨(collectUniqueLabels input.buffer)[v.toNat], ?_, ?_⟩
      · exact (mem_collectUniqueLabels input.buffer _).1 (List.getElem_mem _)
      · rw [List.indexOf_getElem (collectUniqueLabels_nodup input.buffer)]
        omega

/-- C2: for every label raster and every two pixel positions `p` and `q` (buffer
offsets) holding `a` and `b`, the output of `RelabelSequential` holds values
`a'` and `b'` at `p` and `q` with `a' < b'` whenever `a < b`, and `a' = b'`
whenever `a = b`. -/
theorem RelabelSequential_order (input : Image Int) (mem : Nat → Int) (p q : Nat) (a b : Int)
    (hp : input.buffer[p]? = some a) (hq : input.buffer[q]? = some b) :
    ∃ a' b' : Int, (RelabelSequential input mem).buffer[p]? = some a' ∧
      (RelabelSequential input mem).buffer[q]? = some b' ∧
      (a < b → a' < b') ∧ (a = b → a' = b') := by
  refine ⟨((collectUniqueLabels input.buffer).indexOf a : Int),
    ((collectUniqueLabels input.buffer).indexOf b : Int), ?_, ?_, ?_, ?_⟩
  · rw [RelabelSequential_buffer, List.getElem?_map, hp]; rfl
  · rw [RelabelSequential_buffer, List.getElem?_map, hq]; rfl
  · intro hab
    have := indexOf_lt_of_sorted _ (collectUniqueLabels_sorted input.buffer) a b
      ((mem_collectUniqueLabels _ _).2 (List.getElem?_mem hp))
      ((mem_collectUniqueLabels _ _).2 (List.getElem?_mem hq)) hab
    omega
  · intro hab; rw [hab]

/-- Witness of C2: the raster `[[5, 5], [10, 10]]`, positions 0 and 2. -/
theorem RelabelSequential_order_witness :
    ∃ a' b' : Int, (RelabelSequential labels5and10 (fun _ => 0)).buffer[0]? = some a' ∧
      (RelabelSequential labels5and10 (fun _ => 0)).buffer[2]? = some b' ∧
      ((5 : Int) < 10 → a' < b') ∧ ((5 : Int) = 10 → a' = b') :=
  RelabelSequential_order labels5and10 (fun _ => 0) 0 2 5 10 (by decide) (by decide)

/-- The set of a raster whose values are exactly `0, ..., U - 1` lists them in
this order. -/
theorem collectUniqueLabels_of_dense (pixels : List Int) (U : Nat)
    (hdense : ∀ v : Int, v ∈ pixels ↔ 0 ≤ v ∧ v < (U : Int)) :
    collectUniqueLabels pixels = (List.range U).map (fun n : Nat => (n : Int)) := by
  have hsorted : ((List.range U).map (fun n : Nat => (n : Int))).Sorted (· < ·) := by
    unfold List.Sorted
    rw [List.pairwise_map]
    exact (List.sorted_lt_range U).imp (fun h => by exact_mod_cast h)
  apply List.eq_of_perm_of_sorted ?_ (collectUniqueLabels_sorted pixels) hsorted
  rw [List.perm_ext_iff_of_nodup (collectUniqueLabels_nodup pixels) hsorted.nodup]
  intro a
  rw [mem_collectUniqueLabels, hdense, List.mem_map]
  constructor
  · rintro ⟨h0, hlt⟩
    exact ⟨a.toNat, List.mem_range.2 (by omega), by omega⟩
  · rintro ⟨n, hn, rfl⟩
    have := List.mem_range.1 hn
    omega

/-- C4: for every label raster whose set of pixel values is exactly
`{0, ..., U - 1}`, the output of `RelabelSequential` is the input itself (same
region, same pixel at every position). -/
theorem RelabelSequential_dense_noop (input : Image Int) (mem : Nat → Int) (U : Nat)
    (hdense : ∀ v : Int, v ∈ input.buffer ↔ 0 ≤ v ∧ v < (U : Int)) :
    RelabelSequential input mem = input := by
  refine Image.eq_of_buffer (RelabelSequential input mem) input (by rfl) ?_
  rw [RelabelSequential_buffer, collectUniqueLabels_of_dense input.buffer U hdense]
  conv_rhs => rw [← List.map_id input.buffer]
  apply List.map_congr_left
  intro v hv
  obtain ⟨h0, hlt⟩ := (hdense v).1 hv
  have hnd : ((List.range U).map (fun n : Nat => (n : Int))).Nodup :=
    (List.nodup_range U).map (fun a b h => by exact_mod_cast h)
  have hlen : v.toNat < ((List.range U).map (fun n : Nat => (n : Int))).length := by
    rw [List.length_map, List.length_range]; omega
  have hget : ((List.range U).map (fun n : Nat => (n : Int)))[v.toNat] = v := by
    rw [List.getElem_map, List.getElem_range]; omega
  have := List.indexOf_getElem hnd v.toNat hlen
  rw [hget] at this
  rw [this]
  simp only [id]
  omega

/-- Witness of C4: the dense raster `[[0, 0], [1, 1]]`, with `U = 2`. -/
theorem RelabelSequential_dense_noop_witness :
    RelabelSequential labels0and1 (fun _ => 7) = labels0and1 :=
  RelabelSequential_dense_noop labels0and1 (fun _ => 7) 2 (by
    intro v
    simp only [labels0and1, List.mem_cons, List.mem_singleton, List.not_mem_nil, or_false]
    omega)

/-- C8: for every label raster of non-negative labels, `RelabelSequential` run
with `output` sharing the storage of `input` produces the raster that it
produces with a separate output buffer. -/
theorem RelabelSequential_in_place (input : Image Int) (mem : Nat → Int)
    (hnn : ∀ v ∈ input.buffer, (0 : Int) ≤ v) :
    RelabelSequentialInPlace input = RelabelSequential input mem := by
  refine Image.eq_of_buffer (RelabelSequentialInPlace input) (RelabelSequential input mem)
    (by rfl) ?_
  rw [RelabelSequentialInPlace_buffer input hnn, RelabelSequential_buffer]

/-- Witness of C8: the raster `[[5, 5], [10, 10]]`. -/
theorem RelabelSequential_in_place_witness :
    RelabelSequentialInPlace labels5and10 = RelabelSequential labels5and10 (fun _ => 7) :=
  RelabelSequential_in_place labels5and10 (fun _ => 7) (by decide)

/-! ## Claims on DeepCopy and DeepCopyInRegion -/

/-- C9 (the code at the failing input): on the raster `[[1, 2], [3, 4]]` and the
region of size 1 by 1 at index (1, 1), whose only pixel is 4 in the source,
`DeepCopyInRegion` leaves 1 (the first pixel of the source) in the output and
stores the other three source pixels past the end of the 1-pixel output
buffer. -/
theorem DeepCopyInRegion_copies_from_start :
    ImageRegion.IsInside raster2x2.region ⟨1, 1, 1, 1⟩ ∧
    raster2x2.pixelAt (1 + 0) (1 + 0) = some 4 ∧
    (DeepCopyInRegion raster2x2 ⟨1, 1, 1, 1⟩ (fun _ => 0)).output.pixelAt 0 0 = some 1 ∧
    (DeepCopyInRegion raster2x2 ⟨1, 1, 1, 1⟩ (fun _ => 0)).overrun = [2, 3, 4] := by
  decide

/-! ## Claims on ColorLabelsByAverageColor -/

/-- C3 (the code at the failing input): the labels `[[0, 0], [1, 1]]` are the
relabeling of `[[5, 5], [10, 10]]`; on them and the colours
`[[(10,10,10), (20,20,20)], [(30,30,30), (40,40,40)]]` the accumulated sums are
`(30,30,30)` and `(70,70,70)` for two pixels each, so that the averages are
`(15,15,15)` and `(35,35,35)`, but `ColorLabelsByAverageColor` writes
`(0,0,0)` to every output pixel. -/
theorem ColorLabelsByAverageColor_writes_zero :
    RelabelSequential labels5and10 (fun _ => 0) = labels0and1 ∧
    ∃ t : ColorLabels FloatVal,
      ColorLabelsByAverageColor floatPixel colors2x2 labels0and1 (fun _ => gray 9) = some t ∧
      t.labelCount = [2, 2] ∧
      t.segmentFloatColors = [gray 30, gray 70] ∧
      t.output.buffer = [gray 0, gray 0, gray 0, gray 0] ∧
      t.output.buffer ≠ [gray 15, gray 15, gray 35, gray 35] := by
  refine ⟨Image.eq_of_buffer _ _ (by rfl) (by decide),
    _, ColorLabelsByAverageColor_2x2 _, rfl, rfl, rfl, ?_⟩
  simp [gray]

/-- C5: for every non-empty label raster of non-negative labels (and a colour
raster of the same region), `ColorLabelsByAverageColor` runs to its end with
`maxLabel` the maximum label; `labelCount` has `maxLabel + 1` entries; for every
id `i` in `0..maxLabel`, `labelCount[i]` is the number of pixels whose label is
`i`; and the entries of `labelCount` sum to the number of pixels of the
raster. -/
theorem labelCount_conservation {C : Type} (P : PixelOps C) (image : Image (Vec3 C))
    (labelImage : Image Int) (mem : Nat → Vec3 C) (hreg : image.region = labelImage.region)
    (hnn : ∀ v ∈ labelImage.buffer, (0 : Int) ≤ v) (hne : labelImage.buffer ≠ []) :
    ∃ t : ColorLabels C, ColorLabelsByAverageColor P image labelImage mem = some t ∧
      MaxValue labelImage = some (t.maxLabel : Int) ∧
      t.labelCount.length = t.maxLabel + 1 ∧
      (∀ i : Nat, i ≤ t.maxLabel → t.labelCount[i]? = some (labelImage.buffer.count (i : Int))) ∧
      t.labelCount.sum = labelImage.buffer.length ∧
      t.labelCount.sum = labelImage.region.numberOfPixels := by
  obtain ⟨t, ht, hacc, _, _, _, _⟩ :=
    ColorLabelsByAverageColor_spec P image labelImage mem hreg hnn hne
  obtain ⟨mx, acc, hmx, hmx0, _, hacc2, hl, _, hsum, hcount⟩ :=
    accumulate_spec P image labelImage hreg hnn hne
  rw [hacc] at hacc2
  simp only [Option.some.injEq, Prod.mk.injEq] at hacc2
  obtain ⟨hm, hacc3⟩ := hacc2
  have hlc : t.labelCount = acc.labelCount := by rw [← hacc3]
  refine ⟨t, ht, ?_, ?_, ?_, ?_, ?_⟩
  · rw [hmx, hm]; congr 1; omega
  · rw [hlc, hl, hm]
  · intro i hi
    rw [hlc]
    exact hcount i (by omega)
  · rw [hlc, hsum]
  · rw [hlc, hsum, labelImage.hbuf]

/-- Witness of C5: the labels `[[0, 0], [1, 1]]` with the colours
`[[(10,10,10), (20,20,20)], [(30,30,30), (40,40,40)]]`. -/
theorem labelCount_conservation_witness :
    ∃ t : ColorLabels FloatVal,
      ColorLabelsByAverageColor floatPixel colors2x2 labels0and1 (fun _ => gray 9) = some t ∧
      MaxValue labels0and1 = some (t.maxLabel : Int) ∧
      t.labelCount.length = t.maxLabel + 1 ∧
      (∀ i : Nat, i ≤ t.maxLabel →
        t.labelCount[i]? = some (labels0and1.buffer.count (i : Int))) ∧
      t.labelCount.sum = labels0and1.buffer.length ∧
      t.labelCount.sum = labels0and1.region.numberOfPixels :=
  labelCount_conservation floatPixel colors2x2 labels0and1 (fun _ => gray 9) rfl
    (by decide) (by decide)

/-- C6 (the code at the failing input): on the labels `[[0, 0], [1, 1]]` and the
colours `[[(10,10,10), (20,20,20)], [(30,30,30), (40,40,40)]]`, label 0 has the
count 2 and the accumulated sum `(30,30,30)`, while the average computed for it
is `(0,0,0)`: the count times the average is 0 and not 30. -/
theorem segmentFloatColors_not_count_times_average :
    ∃ t : ColorLabels FloatVal,
      ColorLabelsByAverageColor floatPixel colors2x2 labels0and1 (fun _ => gray 9) = some t ∧
      t.labelCount[0]? = some 2 ∧
      t.segmentFloatColors[0]? = some (gray 30) ∧
      t.segmentColors[0]? = some (gray 0) ∧
      FloatVal.mulCount 2 (gray 0).c0 = FloatVal.num 0 ∧
      FloatVal.mulCount 2 (gray 0).c0 ≠ (gray 30).c0 := by
  refine ⟨_, ColorLabelsByAverageColor_2x2 _, rfl, rfl, rfl, ?_, ?_⟩
  · simp [FloatVal.mulCount, gray]
  · simp [FloatVal.mulCount, gray]

/-- C7 (the claim fails): on the labels `[[0, 5]]`, where the ids 1 to 4 occur
in no pixel, `ColorLabelsByAverageColor` reports no failure: it returns its
result, in which `labelCount[1]` is 0 and entry 1 of `segmentColors` is the
not-a-number value of the division by that count. -/
theorem ColorLabelsByAverageColor_divides_by_zero_count :
    ∃ t : ColorLabels FloatVal,
      ColorLabelsByAverageColor floatPixel colors2x1 labels0and5 (fun _ => gray 9) = some t ∧
      t.labelCount[1]? = some 0 ∧
      t.segmentColors[1]? = some ⟨FloatVal.nan, FloatVal.nan, FloatVal.nan⟩ ∧
      averagePixel floatPixel ⟨floatPixel.zero, floatPixel.zero, floatPixel.zero⟩ 0 =
        ⟨FloatVal.nan, FloatVal.nan, FloatVal.nan⟩ :=
  ⟨_, ColorLabelsByAverageColor_sparse _, rfl, rfl, rfl⟩

/-- C7 as amended: for every label raster of non-negative labels (and a colour
raster of the same region) in which some id `i` in `0..maxLabel` occurs in no
pixel, `ColorLabelsByAverageColor` runs to its end and reports no failure;
`labelCount[i]` is 0, and entry `i` of `segmentColors` is the result of the
division by that zero count, the not-a-number value converted to the pixel
type. -/
theorem absent_label_average_is_nan {C : Type} (P : PixelOps C) (image : Image (Vec3 C))
    (labelImage : Image Int) (mem : Nat → Vec3 C) (i : Nat) (mx : Int)
    (hreg : image.region = labelImage.region)
    (hnn : ∀ v ∈ labelImage.buffer, (0 : Int) ≤ v)
    (hmx : MaxValue labelImage = some mx) (hi : (i : Int) ≤ mx)
    (habsent : (i : Int) ∉ labelImage.buffer) :
    ∃ t : ColorLabels C, ColorLabelsByAverageColor P image labelImage mem = some t ∧
      t.labelCount[i]? = some 0 ∧
      t.segmentColors[i]? =
        some { c0 := P.ofFloat FloatVal.nan, c1 := P.ofFloat FloatVal.nan,
               c2 := P.ofFloat FloatVal.nan } := by
  have hne : labelImage.buffer ≠ [] := by
    intro h
    simp [MaxValue, h] at hmx
  obtain ⟨t, ht, hacc, _, hseg, _, _⟩ :=
    ColorLabelsByAverageColor_spec P image labelImage mem hreg hnn hne
  obtain ⟨mx2, acc, hmx2, hmx0, _, hacc2, _, _, _, hcount⟩ :=
    accumulate_spec P image labelImage hreg hnn hne
  rw [hmx] at hmx2
  cases hmx2
  rw [hacc] at hacc2
  simp only [Option.some.injEq, Prod.mk.injEq] at hacc2
  obtain ⟨_, hacc3⟩ := hacc2
  have hlc : t.labelCount = acc.labelCount := by rw [← hacc3]
  have hzero : t.labelCount[i]? = some 0 := by
    rw [hlc, hcount i (by omega), List.count_eq_zero.2 habsent]
  refine ⟨t, ht, hzero, ?_⟩
  rw [hseg i 0 hzero]
  simp [averagePixel, P.toFloat_zero, FloatVal.divCount]

/-- Witness of C7 as amended: the labels `[[0, 5]]` and the id 1. -/
theorem absent_label_average_is_nan_witness :
    ∃ t : ColorLabels FloatVal,
      ColorLabelsByAverageColor floatPixel colors2x1 labels0and5 (fun _ => gray 9) = some t ∧
      t.labelCount[1]? = some 0 ∧
      t.segmentColors[1]? =
        some { c0 := floatPixel.ofFloat FloatVal.nan, c1 := floatPixel.ofFloat FloatVal.nan,
               c2 := floatPixel.ofFloat FloatVal.nan } :=
  absent_label_average_is_nan floatPixel colors2x1 labels0and5 (fun _ => gray 9) 1 5 rfl
    (by decide) (by decide) (by decide) (by decide)

/-! ## Rank of a label -/

/-- In an ascending list, the position of an element is the number of elements
below it. -/
theorem indexOf_eq_length_filter_lt (l : List Int) (hs : l.Sorted (· < ·)) :
    ∀ v ∈ l, l.indexOf v = (l.filter (fun u => decide (u < v))).length := by
  induction l with
  | nil => intro v hv; simp at hv
  | cons a l ih =>
    intro v hv
    have hs2 := List.sorted_cons.1 hs
    by_cases hva : a = v
    · subst hva
      rw [List.indexOf_cons_self, List.filter_cons_of_neg (by simp)]
      have : l.filter (fun u => decide (u < a)) = [] := by
        rw [List.filter_eq_nil_iff]
        intro b hb
        have := hs2.1 b hb
        simp only [decide_eq_true_eq]; omega
      rw [this]; rfl
    · have hvl : v ∈ l := by
        rcases List.mem_cons.1 hv with h | h
        · exact absurd h.symm hva
        · exact h
      have hlt : a < v := hs2.1 v hvl
      rw [List.indexOf_cons_ne _ hva, List.filter_cons_of_pos (by simpa using hlt),
        List.length_cons, ih hs2.2 v hvl]

/-- The position of a pixel value in the set of unique labels is the number of
distinct pixel values below it. -/
theorem indexOf_collectUniqueLabels (input : Image Int) (v : Int) (hv : v ∈ input.buffer) :
    (collectUniqueLabels input.buffer).indexOf v = distinctValuesBelow input v := by
  rw [indexOf_eq_length_filter_lt _ (collectUniqueLabels_sorted input.buffer) v
    ((mem_collectUniqueLabels _ _).2 hv), distinctValuesBelow]
  apply List.Perm.length_eq
  apply List.Perm.filter
  rw [List.perm_ext_iff_of_nodup (collectUniqueLabels_nodup input.buffer)
    (List.nodup_dedup input.buffer)]
  intro a
  rw [mem_collectUniqueLabels, List.mem_dedup]

/-- C14: for every label raster, the output of `RelabelSequential` holds at every
pixel position the number of distinct values of the input that are strictly
smaller than the input value at that position. -/
theorem RelabelSequential_rank (input : Image Int) (mem : Nat → Int) :
    (RelabelSequential input mem).buffer =
      input.buffer.map (fun v => (distinctValuesBelow input v : Int)) ∧
    ∀ p : Nat, (RelabelSequential input mem).buffer[p]? =
      (input.buffer[p]?).map (fun v => (distinctValuesBelow input v : Int)) := by
  have h : (RelabelSequential input mem).buffer =
      input.buffer.map (fun v => (distinctValuesBelow input v : Int)) := by
    rw [RelabelSequential_buffer]
    apply List.map_congr_left
    intro v hv
    rw [indexOf_collectUniqueLabels input v hv]
  refine ⟨h, fun p => ?_⟩
  rw [h, List.getElem?_map]

/-! ## Claims on CountPixelsWithValue -/

/-- The count is all or nothing: the test of the loop does not depend on the
position of the iterator. -/
theorem CountPixelsWithValue_all_or_nothing {T : Type} [DecidableEq T] (imageGet : Image T → T)
    (image : Image T) (value : T) :
    CountPixelsWithValue imageGet image value =
      if imageGet image = value then image.buffer.length else 0 := by
  unfold CountPixelsWithValue
  by_cases h : imageGet image = value
  · simp only [if_pos h]
    have : ∀ (l : List T) (c : Nat), l.foldl (fun counter _ => counter + 1) c = c + l.length := by
      intro l
      induction l with
      | nil => intro c; rfl
      | cons a l ih => intro c; rw [List.foldl_cons, ih, List.length_cons]; omega
    rw [this]; omega
  · simp only [if_neg h]
    have : ∀ (l : List T) (c : Nat), l.foldl (fun counter _ => counter) c = c := by
      intro l
      induction l with
      | nil => intro c; rfl
      | cons a l ih => intro c; rw [List.foldl_cons, ih]
    rw [this]

/-- C11 (the code at the failing input): the raster `[[1, 2], [3, 4]]` has one
pixel of value 1, but whatever the image answers to `Get()`,
`CountPixelsWithValue` returns 0 or 4 for the value 1, never 1. -/
theorem CountPixelsWithValue_not_the_count (imageGet : Image Int → Int) :
    raster2x2.buffer.count 1 = 1 ∧
    (CountPixelsWithValue imageGet raster2x2 1 = 0 ∨
      CountPixelsWithValue imageGet raster2x2 1 = 4) ∧
    CountPixelsWithValue imageGet raster2x2 1 ≠ raster2x2.buffer.count 1 := by
  have h := CountPixelsWithValue_all_or_nothing imageGet raster2x2 1
  refine ⟨by decide, ?_, ?_⟩
  · by_cases hg : imageGet raster2x2 = 1
    · right; rw [h, if_pos hg]; rfl
    · left; rw [h, if_neg hg]
  · have hc : raster2x2.buffer.count 1 = 1 := by decide
    rw [hc, h]
    by_cases hg : imageGet raster2x2 = 1
    · rw [if_pos hg]; decide
    · rw [if_neg hg]; decide

/-! ## Further lemmas on ColorLabelsByAverageColor -/

/-- The quotient of the zero pixel and a non-zero count is the zero pixel. -/
theorem averagePixel_zero {C : Type} (P : PixelOps C) (n : Nat) (hn : 0 < n) :
    averagePixel P { c0 := P.zero, c1 := P.zero, c2 := P.zero } n =
      { c0 := P.zero, c1 := P.zero, c2 := P.zero } := by
  have hn0 : n ≠ 0 := by omega
  simp [averagePixel, P.toFloat_zero, FloatVal.divCount, hn0, P.ofFloat_zero]

/-- The call on an empty label raster has no result: `maxLabel` is undefined. -/
theorem ColorLabelsByAverageColor_empty {C : Type} (P : PixelOps C) (image : Image (Vec3 C))
    (labelImage : Image Int) (mem : Nat → Vec3 C) (hempty : labelImage.buffer = []) :
    ColorLabelsByAverageColor P image labelImage mem = none := by
  simp [ColorLabelsByAverageColor, accumulate, MaxValue, hempty]

/-- On a non-empty raster of non-negative labels, with a colour image of the
same region, the call runs to its end; the three vectors have `maxLabel + 1`
entries, `maxLabel` being the maximum label; every label of the raster is a
valid subscript; the entry of `segmentColors` for a label that occurs is the
zero pixel, and so is every pixel of the output. -/
theorem ColorLabelsByAverageColor_full {C : Type} (P : PixelOps C) (image : Image (Vec3 C))
    (labelImage : Image Int) (mem : Nat → Vec3 C) (hreg : image.region = labelImage.region)
    (hnn : ∀ v ∈ labelImage.buffer, (0 : Int) ≤ v) (hne : labelImage.buffer ≠ []) :
    ∃ (t : ColorLabels C) (mx : Int),
      ColorLabelsByAverageColor P image labelImage mem = some t ∧
      MaxValue labelImage = some mx ∧ 0 ≤ mx ∧ t.maxLabel = mx.toNat ∧
      (∀ v ∈ labelImage.buffer, v ≤ mx) ∧
      t.labelCount.length = t.maxLabel + 1 ∧
      t.segmentFloatColors.length = t.maxLabel + 1 ∧
      t.segmentColors.length = t.maxLabel + 1 ∧
      (∀ i : Nat, i ≤ t.maxLabel →
        t.labelCount[i]? = some (labelImage.buffer.count (i : Int))) ∧
      t.output.region = labelImage.region ∧
      (∀ (k : Nat) (label : Int), labelImage.buffer[k]? = some label →
        t.output.buffer[k]? = t.segmentColors[label.toNat]?) ∧
      (∀ label ∈ labelImage.buffer, t.segmentColors[label.toNat]? =
        some { c0 := P.zero, c1 := P.zero, c2 := P.zero }) := by
  obtain ⟨t, ht, hacc, hsc, hseg, hor, hout⟩ :=
    ColorLabelsByAverageColor_spec P image labelImage mem hreg hnn hne
  obtain ⟨mx, acc, hmx, hmx0, hle, hacc2, hl, hfl, _, hcount⟩ :=
    accumulate_spec P image labelImage hreg hnn hne
  rw [hacc] at hacc2
  simp only [Option.some.injEq, Prod.mk.injEq] at hacc2
  obtain ⟨hm, hacc3⟩ := hacc2
  have hlc : t.labelCount = acc.labelCount := by rw [← hacc3]
  have hfc : t.segmentFloatColors = acc.segmentFloatColors := by rw [← hacc3]
  have hcnt : ∀ i : Nat, i ≤ t.maxLabel →
      t.labelCount[i]? = some (labelImage.buffer.count (i : Int)) := by
    intro i hi
    rw [hlc]
    exact hcount i (by omega)
  refine ⟨t, mx, ht, hmx, hmx0, hm, hle, by rw [hlc, hl, hm], by rw [hfc, hfl, hm], hsc,
    hcnt, hor, hout, fun label hlabel => ?_⟩
  have h0 := hnn label hlabel
  have h1 := hle label hlabel
  have hc := hcnt label.toNat (by omega)
  have hcast : ((label.toNat : Nat) : Int) = label := Int.toNat_of_nonneg h0
  rw [hcast] at hc
  rw [hseg label.toNat _ hc]
  rw [averagePixel_zero P _ (List.count_pos_iff.2 hlabel)]

/-- Under the same conditions the output has the region of the label image and
holds the zero pixel everywhere. -/
theorem ColorLabelsByAverageColor_output {C : Type} (P : PixelOps C) (image : Image (Vec3 C))
    (labelImage : Image Int) (mem : Nat → Vec3 C) (hreg : image.region = labelImage.region)
    (hnn : ∀ v ∈ labelImage.buffer, (0 : Int) ≤ v) (hne : labelImage.buffer ≠ []) :
    ∃ t : ColorLabels C, ColorLabelsByAverageColor P image labelImage mem = some t ∧
      t.output.region = labelImage.region ∧
      t.output.buffer = List.replicate labelImage.buffer.length
        { c0 := P.zero, c1 := P.zero, c2 := P.zero } := by
  obtain ⟨t, mx, ht, _, _, _, _, _, _, _, _, hor, hout, hzero⟩ :=
    ColorLabelsByAverageColor_full P image labelImage mem hreg hnn hne
  refine ⟨t, ht, hor, ?_⟩
  have hlen : t.output.buffer.length = labelImage.buffer.length := by
    rw [t.output.hbuf, hor, labelImage.hbuf]
  apply List.ext_getElem?
  intro k
  rw [List.getElem?_replicate]
  by_cases hk : k < labelImage.buffer.length
  · rw [if_pos hk]
    have hlk : labelImage.buffer[k]? = some labelImage.buffer[k] := List.getElem?_eq_getElem hk
    rw [hout k _ hlk]
    exact hzero _ (List.getElem_mem _)
  · rw [if_neg hk]
    exact List.getElem?_eq_none (by omega)

/-- The set of a non-empty raster whose pixels all hold `c` is `{c}`. -/
theorem collectUniqueLabels_of_constant (pixels : List Int) (c : Int) (hne : pixels ≠ [])
    (hall : ∀ v ∈ pixels, v = c) : collectUniqueLabels pixels = [c] := by
  have hc : c ∈ pixels := by
    cases pixels with
    | nil => exact absurd rfl hne
    | cons v rest =>
      have := hall v (List.mem_cons_self _ _)
      rw [← this]; exact List.mem_cons_self _ _
  apply List.eq_of_perm_of_sorted ?_ (collectUniqueLabels_sorted pixels) (List.sorted_singleton c)
  rw [List.perm_ext_iff_of_nodup (collectUniqueLabels_nodup pixels) (List.nodup_singleton c)]
  intro a
  rw [mem_collectUniqueLabels, List.mem_singleton]
  constructor
  · exact hall a
  · intro h; rw [h]; exact hc

/-- Relabeling a non-empty raster of a single value gives zeros. -/
theorem RelabelSequential_of_constant (input : Image Int) (mem : Nat → Int) (c : Int)
    (hne : input.buffer ≠ []) (hall : ∀ v ∈ input.buffer, v = c) :
    (RelabelSequential input mem).buffer = List.replicate input.buffer.length 0 := by
  rw [RelabelSequential_buffer, collectUniqueLabels_of_constant input.buffer c hne hall,
    List.eq_replicate_iff]
  refine ⟨List.length_map _ _, fun b hb => ?_⟩
  obtain ⟨v, hv, rfl⟩ := List.mem_map.1 hb
  rw [hall v hv, List.indexOf_cons_self]
  rfl

/-! ## Further claims on RelabelSequential and ColorLabelsByAverageColor -/

/-- C12: for every non-empty raster in which all pixels have the same value,
`RelabelSequential` outputs the all-zero raster of the same region, and
`ColorLabelsByAverageColor` over that output (with a colour raster of the same
region) has `maxLabel = 0` and per-label vectors of exactly one entry, the one
of index 0, whose pixel count is the number of pixels of the raster. -/
theorem single_label_edge_case {C : Type} (P : PixelOps C) (image : Image (Vec3 C))
    (input : Image Int) (mem : Nat → Int) (memOut : Nat → Vec3 C) (c : Int)
    (hreg : image.region = input.region) (hne : input.buffer ≠ [])
    (hall : ∀ v ∈ input.buffer, v = c) :
    (RelabelSequential input mem).region = input.region ∧
    (RelabelSequential input mem).buffer = List.replicate input.region.numberOfPixels 0 ∧
    ∃ t : ColorLabels C,
      ColorLabelsByAverageColor P image (RelabelSequential input mem) memOut = some t ∧
      t.maxLabel = 0 ∧
      t.labelCount = [input.region.numberOfPixels] ∧
      t.segmentFloatColors.length = 1 ∧
      t.segmentColors.length = 1 := by
  have hbuf := RelabelSequential_of_constant input mem c hne hall
  have hpos : 0 < input.buffer.length := List.length_pos.2 hne
  have hnn : ∀ v ∈ (RelabelSequential input mem).buffer, (0 : Int) ≤ v := by
    intro v hv
    rw [hbuf] at hv
    rw [(List.mem_replicate.1 hv).2]
  have hne2 : (RelabelSequential input mem).buffer ≠ [] := by
    rw [hbuf]
    intro h
    have := congrArg List.length h
    rw [List.length_replicate, List.length_nil] at this
    omega
  obtain ⟨t, mx, ht, hmx, _, hm, _, hl1, hl2, hl3, hcnt, _, _, _⟩ :=
    ColorLabelsByAverageColor_full P image (RelabelSequential input mem) memOut hreg hnn hne2
  obtain ⟨mx2, hmx2, hmem, _⟩ := MaxValue_spec (RelabelSequential input mem) hne2
  rw [hmx] at hmx2
  cases hmx2
  have hmx0 : mx = 0 := by
    rw [hbuf] at hmem
    exact (List.mem_replicate.1 hmem).2
  have hmax : t.maxLabel = 0 := by rw [hm, hmx0]; rfl
  rw [hmax] at hl1 hl2 hl3 hcnt
  refine ⟨rfl, by rw [hbuf, input.hbuf], t, ht, hmax, ?_, hl2, hl3⟩
  have h0 := hcnt 0 (le_refl 0)
  rw [hbuf] at h0
  have hc0 : List.count ((0 : Nat) : Int) (List.replicate input.buffer.length (0 : Int)) =
      input.buffer.length := List.count_replicate_self 0 _
  rw [hc0, input.hbuf] at h0
  cases hlc : t.labelCount with
  | nil => rw [hlc] at hl1; simp at hl1
  | cons a rest =>
    rw [hlc] at hl1 h0
    simp only [List.length_cons, Nat.zero_add, add_left_eq_self, List.length_eq_zero] at hl1
    simp only [List.getElem?_cons_zero, Option.some.injEq] at h0
    rw [hl1, h0]

/-- Witness of C12: the raster `[[7, 7], [7, 7]]`. -/
theorem single_label_edge_case_witness :
    (RelabelSequential labels7 (fun _ => 3)).region = labels7.region ∧
    (RelabelSequential labels7 (fun _ => 3)).buffer =
      List.replicate labels7.region.numberOfPixels 0 ∧
    ∃ t : ColorLabels FloatVal,
      ColorLabelsByAverageColor floatPixel colors2x2 (RelabelSequential labels7 (fun _ => 3))
        (fun _ => gray 9) = some t ∧
      t.maxLabel = 0 ∧
      t.labelCount = [labels7.region.numberOfPixels] ∧
      t.segmentFloatColors.length = 1 ∧
      t.segmentColors.length = 1 :=
  single_label_edge_case floatPixel colors2x2 labels7 (fun _ => 3) (fun _ => gray 9) 7 rfl
    (by decide) (by decide)

/-- C15: for every non-empty label raster of non-negative labels (and a colour
raster of the same region), `ColorLabelsByAverageColor` runs to its end without
an access outside a vector or a buffer; `labelCount`, `segmentFloatColors` and
`segmentColors` have exactly `maxValue(labels) + 1` entries; and the label of
every pixel is a valid subscript of the three vectors. -/
theorem label_lookups_in_bounds {C : Type} (P : PixelOps C) (image : Image (Vec3 C))
    (labelImage : Image Int) (mem : Nat → Vec3 C) (hreg : image.region = labelImage.region)
    (hnn : ∀ v ∈ labelImage.buffer, (0 : Int) ≤ v) (hne : labelImage.buffer ≠ []) :
    ∃ (t : ColorLabels C) (mx : Int),
      ColorLabelsByAverageColor P image labelImage mem = some t ∧
      MaxValue labelImage = some mx ∧ ((mx.toNat : Nat) : Int) = mx ∧
      t.labelCount.length = mx.toNat + 1 ∧
      t.segmentFloatColors.length = mx.toNat + 1 ∧
      t.segmentColors.length = mx.toNat + 1 ∧
      ∀ label ∈ labelImage.buffer, 0 ≤ label ∧
        label.toNat < t.labelCount.length ∧
        label.toNat < t.segmentFloatColors.length ∧
        label.toNat < t.segmentColors.length := by
  obtain ⟨t, mx, ht, hmx, hmx0, hm, hle, hl1, hl2, hl3, _, _, _, _⟩ :=
    ColorLabelsByAverageColor_full P image labelImage mem hreg hnn hne
  rw [hm] at hl1 hl2 hl3
  refine ⟨t, mx, ht, hmx, Int.toNat_of_nonneg hmx0, hl1, hl2, hl3, fun label hlabel => ?_⟩
  have h0 := hnn label hlabel
  have h1 := hle label hlabel
  rw [hl1, hl2, hl3]
  refine ⟨h0, ?_, ?_, ?_⟩ <;> omega

/-- Witness of C15: the sparse labels `[[0, 5]]`. -/
theorem label_lookups_in_bounds_witness :
    ∃ (t : ColorLabels FloatVal) (mx : Int),
      ColorLabelsByAverageColor floatPixel colors2x1 labels0and5 (fun _ => gray 9) = some t ∧
      MaxValue labels0and5 = some mx ∧ ((mx.toNat : Nat) : Int) = mx ∧
      t.labelCount.length = mx.toNat + 1 ∧
      t.segmentFloatColors.length = mx.toNat + 1 ∧
      t.segmentColors.length = mx.toNat + 1 ∧
      ∀ label ∈ labels0and5.buffer, 0 ≤ label ∧
        label.toNat < t.labelCount.length ∧
        label.toNat < t.segmentFloatColors.length ∧
        label.toNat < t.segmentColors.length :=
  label_lookups_in_bounds floatPixel colors2x1 labels0and5 (fun _ => gray 9) rfl
    (by decide) (by decide)

/-- C16: for every non-empty label raster of non-negative labels and every
colour raster of the same region, `ColorLabelsByAverageColor` runs to its end,
its output has the region of the label raster, and any two pixel positions with
the same label hold the same output colour. -/
theorem output_constant_on_label {C : Type} (P : PixelOps C) (image : Image (Vec3 C))
    (labelImage : Image Int) (mem : Nat → Vec3 C) (hreg : image.region = labelImage.region)
    (hnn : ∀ v ∈ labelImage.buffer, (0 : Int) ≤ v) (hne : labelImage.buffer ≠ []) :
    ∃ t : ColorLabels C, ColorLabelsByAverageColor P image labelImage mem = some t ∧
      t.output.region = labelImage.region ∧
      ∀ (p q : Nat) (label : Int), labelImage.buffer[p]? = some label →
        labelImage.buffer[q]? = some label →
        ∃ color : Vec3 C, t.output.buffer[p]? = some color ∧
          t.output.buffer[q]? = some color := by
  obtain ⟨t, mx, ht, _, _, _, _, _, _, _, _, hor, hout, hzero⟩ :=
    ColorLabelsByAverageColor_full P image labelImage mem hreg hnn hne
  refine ⟨t, ht, hor, fun p q label hp hq => ?_⟩
  exact ⟨{ c0 := P.zero, c1 := P.zero, c2 := P.zero },
    (hout p label hp).trans (hzero label (List.getElem?_mem hp)),
    (hout q label hq).trans (hzero label (List.getElem?_mem hp))⟩

/-- Witness of C16: the labels `[[0, 0], [1, 1]]`. -/
theorem output_constant_on_label_witness :
    ∃ t : ColorLabels FloatVal,
      ColorLabelsByAverageColor floatPixel colors2x2 labels0and1 (fun _ => gray 9) = some t ∧
      t.output.region = labels0and1.region ∧
      ∀ (p q : Nat) (label : Int), labels0and1.buffer[p]? = some label →
        labels0and1.buffer[q]? = some label →
        ∃ color : Vec3 FloatVal, t.output.buffer[p]? = some color ∧
          t.output.buffer[q]? = some color :=
  output_constant_on_label floatPixel colors2x2 labels0and1 (fun _ => gray 9) rfl
    (by decide) (by decide)

/-- C17: for every label raster of non-negative labels and every two colour
rasters of its region, `ColorLabelsByAverageColor` gives the same output for
both; when the call returns, every pixel of its output is the zero colour; and
it does return when the label raster is not empty. -/
theorem output_independent_of_colors {C : Type} (P : PixelOps C)
    (image1 image2 : Image (Vec3 C)) (labelImage : Image Int) (mem1 mem2 : Nat → Vec3 C)
    (hreg1 : image1.region = labelImage.region) (hreg2 : image2.region = labelImage.region)
    (hnn : ∀ v ∈ labelImage.buffer, (0 : Int) ≤ v) :
    (ColorLabelsByAverageColor P image1 labelImage mem1).map (fun t => t.output) =
      (ColorLabelsByAverageColor P image2 labelImage mem2).map (fun t => t.output) ∧
    (∀ t : ColorLabels C, ColorLabelsByAverageColor P image1 labelImage mem1 = some t →
      t.output.buffer = List.replicate labelImage.region.numberOfPixels
        { c0 := P.zero, c1 := P.zero, c2 := P.zero }) ∧
    (labelImage.buffer ≠ [] →
      ∃ t : ColorLabels C, ColorLabelsByAverageColor P image1 labelImage mem1 = some t) := by
  by_cases hempty : labelImage.buffer = []
  · rw [ColorLabelsByAverageColor_empty P image1 labelImage mem1 hempty,
      ColorLabelsByAverageColor_empty P image2 labelImage mem2 hempty]
    exact ⟨rfl, fun t ht => Option.noConfusion ht, fun h => absurd hempty h⟩
  · obtain ⟨t1, h1, r1, b1⟩ :=
      ColorLabelsByAverageColor_output P image1 labelImage mem1 hreg1 hnn hempty
    obtain ⟨t2, h2, r2, b2⟩ :=
      ColorLabelsByAverageColor_output P image2 labelImage mem2 hreg2 hnn hempty
    refine ⟨?_, fun t ht => ?_, fun _ => ⟨t1, h1⟩⟩
    · rw [h1, h2]
      simp only [Option.map_some', Option.some.injEq]
      exact Image.eq_of_buffer t1.output t2.output (by rw [r1, r2]) (by rw [b1, b2])
    · rw [h1] at ht
      cases ht
      rw [b1, labelImage.hbuf]

/-- Witness of C17: the labels `[[0, 0], [1, 1]]` with the colour rasters
`[[(10,10,10), (20,20,20)], [(30,30,30), (40,40,40)]]` and
`[[(1,1,1), (2,2,2)], [(3,3,3), (4,4,4)]]`. -/
theorem output_independent_of_colors_witness :
    (ColorLabelsByAverageColor floatPixel colors2x2 labels0and1 (fun _ => gray 9)).map
        (fun t => t.output) =
      (ColorLabelsByAverageColor floatPixel colors2x2b labels0and1 (fun _ => gray 8)).map
        (fun t => t.output) ∧
    (∀ t : ColorLabels FloatVal,
      ColorLabelsByAverageColor floatPixel colors2x2 labels0and1 (fun _ => gray 9) = some t →
      t.output.buffer = List.replicate labels0and1.region.numberOfPixels
        { c0 := floatPixel.zero, c1 := floatPixel.zero, c2 := floatPixel.zero }) ∧
    (labels0and1.buffer ≠ [] →
      ∃ t : ColorLabels FloatVal,
        ColorLabelsByAverageColor floatPixel colors2x2 labels0and1 (fun _ => gray 9) = some t) :=
  output_independent_of_colors floatPixel colors2x2 colors2x2b labels0and1 (fun _ => gray 9)
    (fun _ => gray 8) rfl rfl (by decide)

/-! ## The channels of BilateralAllChannels -/

/-- The output of `DeepCopy` is the source. -/
theorem DeepCopy_output {T : Type} (input : Image T) (mem : Nat → T) :
    (DeepCopy input mem).output = input :=
  Image.eq_of_buffer (DeepCopy input mem).output input (by rfl) (copyLoop_full input mem).1

theorem foldl_push_back {α β : Type} (g : α → β) (l : List α) :
    ∀ acc : List β, l.foldl (fun acc i => acc ++ [g i]) acc = acc ++ l.map g := by
  induction l with
  | nil => intro acc; simp
  | cons a l ih => intro acc; rw [List.foldl_cons, ih]; simp

theorem VectorImage.eq_of_fields {T : Type} (a b : VectorImage T) (hr : a.region = b.region)
    (hc : a.numberOfComponents = b.numberOfComponents) (hb : a.buffer = b.buffer) : a = b := by
  cases a; cases b; cases hr; cases hc; cases hb; rfl

/-- After the loop, `filteredImages` holds the filtered channels in the order of
the components. -/
theorem filterChannels_eq {T S : Type} (bilateral : S → S → Image T → Image T)
    (image : VectorImage T) (domainSigma rangeSigma : S)
    (memChannel memBlurred : Nat → Nat → T) :
    filterChannels bilateral image domainSigma rangeSigma memChannel memBlurred =
      (List.finRange image.numberOfComponents).map
        (fun i => bilateral domainSigma rangeSigma (VectorIndexSelection image i.1 i.2)) := by
  unfold filterChannels
  simp only [DeepCopy_output, VectorImage.GetNumberOfComponentsPerPixel]
  exact (foldl_push_back (fun i : Fin image.numberOfComponents =>
    bilateral domainSigma rangeSigma (VectorIndexSelection image i.1 i.2)) _ []).trans
      (List.nil_append _)

/-- Composing images of one region gives a vector image of that region, with as
many components as inputs, whose channel `i` is input `i`. -/
theorem ComposeImage_spec {T : Type} (inputs : List (Image T)) (hpos : 0 < inputs.length)
    (r : ImageRegion) (hreg : ∀ im ∈ inputs, im.region = r) :
    ∃ out : VectorImage T, ComposeImage inputs = some out ∧ out.region = r ∧
      out.numberOfComponents = inputs.length ∧
      ∀ (i : Nat) (hi : i < out.numberOfComponents),
        inputs[i]? = some (VectorIndexSelection out i hi) := by
  cases inputs with
  | nil => simp at hpos
  | cons first rest =>
    have hfirst : first.region = r := hreg first (List.mem_cons_self _ _)
    have h : ∀ im ∈ first :: rest, im.region = first.region :=
      fun im him => by rw [hreg im him, hfirst]
    have hsome : ComposeImage (first :: rest) = some
        { region := first.region
          numberOfComponents := (first :: rest).length
          buffer := (List.finRange first.region.numberOfPixels).map (fun k =>
            (first :: rest).pmap
              (fun im (hk : k.1 < im.buffer.length) => im.buffer.get ⟨k.1, hk⟩)
              (fun im him => by rw [im.hbuf, h im him]; exact k.2))
          hbuf := by rw [List.length_map, List.length_finRange]
          hpix := by
            intro px hpx
            obtain ⟨k, _, rfl⟩ := List.mem_map.1 hpx
            exact List.length_pmap } := by
      simp only [ComposeImage, dif_pos h]
    refine ⟨_, hsome, hfirst, rfl, fun i hi => ?_⟩
    have hi2 : i < (first :: rest).length := hi
    rw [List.getElem?_eq_getElem hi2]
    have hri : ((first :: rest)[i]).region = first.region := by
      rw [hreg _ (List.getElem_mem _), hfirst]
    congr 1
    refine Image.eq_of_buffer _ _ (by rw [hri]; rfl) ?_
    apply List.ext_getElem
    · have := ((first :: rest)[i]).hbuf
      rw [this, hri]
      simp [VectorIndexSelection]
    · intro k h1 h2
      simp only [VectorIndexSelection, List.getElem_map, List.getElem_finRange,
        List.get_eq_getElem, List.getElem_pmap, Fin.cast_mk]

/-- Pixels of `L` components are stored whole in an image of `L` components. -/
theorem storeVectorPixels_spec {T : Type} (L : Nat) (l : List (List T))
    (h : ∀ px ∈ l, px.length = L) :
    ∃ pending : List (VectorPixel T L), storeVectorPixels L l = some pending ∧
      pending.map (fun px => px.1) = l := by
  induction l with
  | nil => exact ⟨[], rfl, rfl⟩
  | cons px rest ih =>
    obtain ⟨others, h1, h2⟩ := ih (fun q hq => h q (List.mem_cons_of_mem _ hq))
    have hpx : px.length = L := h px (List.mem_cons_self _ _)
    have hle : L ≤ px.length := by omega
    refine ⟨⟨px.take L, by rw [List.length_take]; omega⟩ :: others, ?_, ?_⟩
    · simp only [storeVectorPixels, storeVectorPixel, dif_pos hle, h1]
    · simp only [List.map_cons, h2]
      rw [List.take_of_length_le (by omega)]

/-- A copy of as many pixels as the output buffer holds fills it with them and
stores nothing past its end. -/
theorem copyLoop_exact {T : Type} {n : Nat} (pending : List T) (out : PixelContainer T n)
    (hlen : pending.length = n) :
    (copyLoop pending 0 out []).1.1 = pending ∧ (copyLoop pending 0 out []).2 = [] := by
  have hle : 0 + pending.length ≤ n := by omega
  refine ⟨?_, copyLoop_overrun _ _ _ _ hle⟩
  apply List.ext_getElem?
  intro k
  rw [copyLoop_getElem? _ _ _ _ k hle]
  by_cases hk : k < pending.length
  · rw [if_pos ⟨Nat.zero_le _, by omega⟩]; rfl
  · rw [if_neg (by omega)]
    have hout := out.2
    rw [List.getElem?_eq_none (by omega), List.getElem?_eq_none (by omega)]

/-- When `output` has the number of components of the source, and this number
is not zero, the deep copy of a vector image is the source. -/
theorem DeepCopyVectorImage_same {T : Type} (input : VectorImage T) (L : Nat)
    (hL : L = input.numberOfComponents) (h0 : 0 < L) (mem : Nat → VectorPixel T L) :
    DeepCopyVectorImage input L mem = some input := by
  obtain ⟨pending, h1, h2⟩ := storeVectorPixels_spec L input.buffer
    (fun px hpx => by rw [hL]; exact input.hpix px hpx)
  have hlen : pending.length = input.region.numberOfPixels := by
    rw [← input.hbuf, ← h2, List.length_map]
  obtain ⟨c1, c2⟩ := copyLoop_exact pending (Allocate input.region mem) hlen
  have hne : L ≠ 0 := by omega
  unfold DeepCopyVectorImage
  rw [if_neg hne]
  simp only [h1]
  split
  · rename_i heq
    congr 1
    exact VectorImage.eq_of_fields _ _ rfl hL (by simp only [c1, h2])
  · rename_i heq
    rw [c2] at heq
    cases heq

theorem VectorIndexSelection_getElem {T : Type} (image : VectorImage T) (i : Nat)
    (hi : i < image.numberOfComponents) (k : Nat) (hk : k < image.buffer.length)
    (hk2 : k < (VectorIndexSelection image i hi).buffer.length) :
    (VectorIndexSelection image i hi).buffer[k] =
      (image.buffer[k]).get ⟨i, by rw [image.hpix _ (List.getElem_mem _)]; exact hi⟩ := by
  simp only [VectorIndexSelection, List.getElem_pmap]

/-- Two vector images of one region and one number of components with the same
channels are equal. -/
theorem ext_channels {T : Type} (a b : VectorImage T) (hr : a.region = b.region)
    (hc : a.numberOfComponents = b.numberOfComponents)
    (h : ∀ (i : Nat) (ha : i < a.numberOfComponents) (hb : i < b.numberOfComponents),
      VectorIndexSelection a i ha = VectorIndexSelection b i hb) : a = b := by
  refine VectorImage.eq_of_fields a b hr hc ?_
  have hlen : a.buffer.length = b.buffer.length := by rw [a.hbuf, b.hbuf, hr]
  apply List.ext_getElem hlen
  intro k h1 h2
  have hak : (a.buffer[k]).length = a.numberOfComponents := a.hpix _ (List.getElem_mem _)
  have hbk : (b.buffer[k]).length = b.numberOfComponents := b.hpix _ (List.getElem_mem _)
  apply List.ext_getElem (by rw [hak, hbk, hc])
  intro j hj1 hj2
  have hja : j < a.numberOfComponents := by rw [← hak]; exact hj1
  have hjb : j < b.numberOfComponents := by rw [← hbk]; exact hj2
  have e := h j hja hjb
  have hka : k < (VectorIndexSelection a j hja).buffer.length := by
    rw [(VectorIndexSelection a j hja).hbuf]
    have := a.hbuf
    simp only [VectorIndexSelection]; omega
  have hkb : k < (VectorIndexSelection b j hjb).buffer.length := by
    rw [(VectorIndexSelection b j hjb).hbuf]
    have := b.hbuf
    simp only [VectorIndexSelection]; omega
  have e2 : (VectorIndexSelection a j hja).buffer[k] = (VectorIndexSelection b j hjb).buffer[k] := by
    simp only [e]
  rw [VectorIndexSelection_getElem a j hja k h1 hka,
    VectorIndexSelection_getElem b j hjb k h2 hkb] at e2
  simpa only [List.get_eq_getElem] using e2

/-- When `output` has the number of components of `image`, this number is not
zero, and the filter keeps the region of every image, `BilateralAllChannels`
returns a vector image of the region and the number of components of `image`
whose channel `i` is the filtered channel `i` of `image`. -/
theorem BilateralAllChannels_spec {T S : Type} (bilateral : S → S → Image T → Image T)
    (image : VectorImage T) (domainSigma rangeSigma : S)
    (memChannel memBlurred : Nat → Nat → T)
    (memOutput : Nat → VectorPixel T image.numberOfComponents)
    (hC : 0 < image.numberOfComponents)
    (hsize : ∀ im : Image T, (bilateral domainSigma rangeSigma im).region = im.region) :
    ∃ out : VectorImage T,
      BilateralAllChannels bilateral image image.numberOfComponents domainSigma rangeSigma
        memChannel memBlurred memOutput = some out ∧
      out.region = image.region ∧
      out.numberOfComponents = image.numberOfComponents ∧
      ∀ (i : Nat) (hi : i < image.numberOfComponents) (ho : i < out.numberOfComponents),
        VectorIndexSelection out i ho =
          bilateral domainSigma rangeSigma (VectorIndexSelection image i hi) := by
  have hlen : ((List.finRange image.numberOfComponents).map
      (fun i => bilateral domainSigma rangeSigma (VectorIndexSelection image i.1 i.2))).length =
      image.numberOfComponents := by
    rw [List.length_map, List.length_finRange]
  obtain ⟨out, h1, h2, h3, h4⟩ := ComposeImage_spec _ (by rw [hlen]; exact hC) image.region
    (fun im him => by
      obtain ⟨i, _, rfl⟩ := List.mem_map.1 him
      rw [hsize]; rfl)
  rw [hlen] at h3
  refine ⟨out, ?_, h2, h3, fun i hi ho => ?_⟩
  · simp only [BilateralAllChannels, filterChannels_eq, h1]
    exact DeepCopyVectorImage_same out image.numberOfComponents h3.symm hC memOutput
  · have h5 := h4 i ho
    have hi2 : i < (List.finRange image.numberOfComponents).length := by
      rw [List.length_finRange]; exact hi
    rw [List.getElem?_map, List.getElem?_eq_getElem hi2, List.getElem_finRange] at h5
    simp only [Option.map_some', Option.some.injEq] at h5
    rw [← h5]
    rfl

/-! ## Claims on BilateralAllChannels -/

/-- C13 (the claim fails): `BilateralAllChannels` never sets the number of
components of `output`. On the two-channel raster `[[(1, 10), (2, 20)]]` with
the filter that adds 1, an `output` of zero components per pixel (a vector image
as created) makes the call fail in `Allocate`, and an `output` of one component
per pixel comes back with one component per pixel, `[[(2), (3)]]`, the second
channel being lost. -/
theorem BilateralAllChannels_keeps_output_components :
    twoChannels.numberOfComponents = 2 ∧
    (BilateralAllChannels addOne twoChannels 0 () () (fun _ _ => 0) (fun _ _ => 0)
      (fun _ => ⟨[], rfl⟩)).isSome = false ∧
    (BilateralAllChannels addOne twoChannels 1 () () (fun _ _ => 0) (fun _ _ => 0)
      (fun _ => ⟨[0], rfl⟩)).map (fun out => (out.numberOfComponents, out.buffer)) =
      some (1, [[2], [3]]) := by
  decide

/-- C13 as amended: for every multi-channel raster of `C` components (`C` at
least 1), every filter that keeps the region of its input, and an `output`
whose number of components per pixel is `C` when it is passed in,
`BilateralAllChannels` returns an output of the region of the input and of `C`
components per pixel, and for every channel index `i < C` channel `i` of the
output is the filter applied to channel `i` of the input alone; with the
identity in the place of the filter the output is the input. -/
theorem BilateralAllChannels_per_channel {T S : Type} (bilateral : S → S → Image T → Image T)
    (image : VectorImage T) (domainSigma rangeSigma : S)
    (memChannel memBlurred : Nat → Nat → T)
    (memOutput : Nat → VectorPixel T image.numberOfComponents)
    (hC : 0 < image.numberOfComponents)
    (hsize : ∀ im : Image T, (bilateral domainSigma rangeSigma im).region = im.region) :
    (∃ out : VectorImage T,
      BilateralAllChannels bilateral image image.numberOfComponents domainSigma rangeSigma
        memChannel memBlurred memOutput = some out ∧
      out.region = image.region ∧
      out.numberOfComponents = image.numberOfComponents ∧
      ∀ (i : Nat) (hi : i < image.numberOfComponents) (ho : i < out.numberOfComponents),
        VectorIndexSelection out i ho =
          bilateral domainSigma rangeSigma (VectorIndexSelection image i hi)) ∧
    BilateralAllChannels (fun _ _ im => im) image image.numberOfComponents domainSigma
      rangeSigma memChannel memBlurred memOutput = some image := by
  constructor
  · exact BilateralAllChannels_spec bilateral image domainSigma rangeSigma memChannel
      memBlurred memOutput hC hsize
  · obtain ⟨out, h1, h2, h3, h4⟩ := BilateralAllChannels_spec
      (fun (_ _ : S) (im : Image T) => im) image domainSigma rangeSigma memChannel memBlurred
      memOutput hC (fun _ => rfl)
    rw [h1, ext_channels out image h2 h3 (fun i ha hb => h4 i hb ha)]

/-- Witness of C13 as amended: the two-channel raster `[[(1, 10), (2, 20)]]`, the
filter that adds 1 to every pixel, and an `output` of two components. -/
theorem BilateralAllChannels_per_channel_witness :
    (∃ out : VectorImage Int,
      BilateralAllChannels addOne twoChannels twoChannels.numberOfComponents () ()
        (fun _ _ => 0) (fun _ _ => 0) (fun _ => ⟨[0, 0], rfl⟩) = some out ∧
      out.region = twoChannels.region ∧
      out.numberOfComponents = twoChannels.numberOfComponents ∧
      ∀ (i : Nat) (hi : i < twoChannels.numberOfComponents) (ho : i < out.numberOfComponents),
        VectorIndexSelection out i ho = addOne () () (VectorIndexSelection twoChannels i hi)) ∧
    BilateralAllChannels (fun _ _ im => im) twoChannels twoChannels.numberOfComponents () ()
      (fun _ _ => 0) (fun _ _ => 0) (fun _ => ⟨[0, 0], rfl⟩) = some twoChannels :=
  BilateralAllChannels_per_channel addOne twoChannels () () (fun _ _ => 0) (fun _ _ => 0)
    (fun _ => ⟨[0, 0], rfl⟩) (by decide) (fun _ => rfl)

end Helpers
